import Mathlib

/-!
# Verification of the wpt test-manifest engine (tools/manifest/manifest.py)

This file gives a shallow embedding of the manifest engine: the skip-trie
(`SkipNode`), the reference-graph resolver (`Manifest.compute_reftests`),
the incremental reconciliation algorithm (`Manifest.update`), serialization
(`Manifest.to_json` / `Manifest.from_json`), the load path (`loadManifestFile`)
and the fixed-kind dictionary (`ManifestDataDict`), together with theorems
settling the spec's testable properties.

Conventions of the embedding:
* Python dicts are embedded as association lists (`PathMap`); `find?` returns
  the binding of a key, `pmSet` rebinds it in place (appending a fresh binding
  at the end, matching dict insertion order), `pmErase` removes it.
* Fallible Python code (assertion failures, `KeyError`, exceptions) is embedded
  with `Option`/`Except`.
* Path keys are plain strings; the host-path translation (`from_os_path` /
  `to_os_path`) is the identity for "/"-separated paths and is elided.
-/

/-- Split a character list at every occurrence of `sep`.  Mirrors Python's
`str.split(sep)`: the result is always non-empty and `"".split(sep) = [""]`. -/
def splitCh (sep : Char) : List Char → List (List Char)
  | [] => [[]]
  | c :: cs =>
    match splitCh sep cs with
    | [] => [[]]
    | g :: gs => if c = sep then [] :: g :: gs else (c :: g) :: gs

/-- `str.split(sep)` on strings. -/
def strSplit (sep : Char) (s : String) : List String :=
  (splitCh sep s.data).map String.mk

/-- Number of occurrences of `'/'` in a string (Python `s.count("/")`). -/
def countSlash (s : String) : Nat :=
  s.data.countP (fun c => c = '/')

/-- Split a character list at the first occurrence of `sep`: returns the part
before it, and `some rest` when `sep` occurs. -/
def splitFirst (sep : Char) : List Char → List Char × Option (List Char)
  | [] => ([], none)
  | c :: cs =>
    if c = sep then ([], some cs)
    else
      let r := splitFirst sep cs
      (c :: r.1, r.2)

/-- Modelled from the spec: `urllib.parse.urlsplit` restricted to the rooted
URLs produced by test items (no scheme or authority component).  Returns
`(path, query, fragment)`; the fragment is everything after the first `'#'`,
the query everything after the first `'?'` in the remainder, with `""` when the
separator is absent (Python's urlsplit likewise returns `""`). -/
def urlsplit3 (url : String) : String × String × String :=
  let f := splitFirst '#' url.data
  let q := splitFirst '?' f.1
  (String.mk q.1, String.mk (q.2.getD []), String.mk (f.2.getD []))

/-! ## Association-list maps

Modelled from the spec: the TypeIndex backing store (`tools/manifest/typedata.py`,
which is not under `src/`) is, per §4.2, a mapping from path keys to stored
values with get/set/delete/contains and key listing; Python dicts generally are
embedded this way.  `pmFind?` returns the first binding of a key. -/

abbrev PathMap (α : Type) := List (String × α)

def pmFind? {α : Type} : PathMap α → String → Option α
  | [], _ => none
  | (k', v) :: r, k => if k' = k then some v else pmFind? r k

/-- Rebind `k` in place if present (first binding), else append at the end:
this is exactly dict assignment, keeping insertion order. -/
def pmSet {α : Type} : PathMap α → String → α → PathMap α
  | [], k, v => [(k, v)]
  | (k', v') :: r, k, v => if k' = k then (k, v) :: r else (k', v') :: pmSet r k v

/-- Remove every binding of `k` (`del d[k]` on a dict with unique keys). -/
def pmErase {α : Type} : PathMap α → String → PathMap α
  | [], _ => []
  | (k', v) :: r, k => if k' = k then pmErase r k else (k', v) :: pmErase r k

def pmKeys {α : Type} (m : PathMap α) : List String := m.map Prod.fst

/-- Key membership, Boolean (`k in d`). -/
def pmMem {α : Type} (m : PathMap α) (k : String) : Bool := (pmFind? m k).isSome

/-- `d.update(d2)`: bind every entry of `d2` into `d`. -/
def pmSetAll {α : Type} (m upd : PathMap α) : PathMap α :=
  upd.foldl (fun acc kv => pmSet acc kv.1 kv.2) m

@[simp] theorem pmFind?_nil {α : Type} (k : String) : pmFind? ([] : PathMap α) k = none := rfl

theorem pmFind?_cons {α : Type} (k' k : String) (v : α) (r : PathMap α) :
    pmFind? ((k', v) :: r) k = if k' = k then some v else pmFind? r k := rfl

theorem pmFind?_set_self {α : Type} (m : PathMap α) (k : String) (v : α) :
    pmFind? (pmSet m k v) k = some v := by
  induction m with
  | nil => simp [pmSet, pmFind?]
  | cons e r ih =>
    obtain ⟨k', v'⟩ := e
    by_cases h : k' = k
    · subst h; simp [pmSet, pmFind?]
    · simp [pmSet, pmFind?, h, ih]

theorem pmFind?_set_other {α : Type} (m : PathMap α) (k q : String) (v : α) (h : k ≠ q) :
    pmFind? (pmSet m k v) q = pmFind? m q := by
  induction m with
  | nil => simp [pmSet, pmFind?, h]
  | cons e r ih =>
    obtain ⟨k', v'⟩ := e
    by_cases h' : k' = k
    · subst h'; simp [pmSet, pmFind?, h]
    · simp [pmSet, pmFind?, h', ih]

theorem pmFind?_erase_self {α : Type} (m : PathMap α) (k : String) :
    pmFind? (pmErase m k) k = none := by
  induction m with
  | nil => simp [pmErase]
  | cons e r ih =>
    obtain ⟨k', v'⟩ := e
    by_cases h : k' = k
    · simp [pmErase, h, ih]
    · simp [pmErase, pmFind?, h, ih]

theorem pmFind?_erase_other {α : Type} (m : PathMap α) (k q : String) (h : k ≠ q) :
    pmFind? (pmErase m k) q = pmFind? m q := by
  induction m with
  | nil => simp [pmErase]
  | cons e r ih =>
    obtain ⟨k', v'⟩ := e
    by_cases h' : k' = k
    · subst h'
      have : k' ≠ q := h
      simp [pmErase, pmFind?, this, ih]
    · simp [pmErase, pmFind?, h', ih]

theorem pmFind?_mem_keys {α : Type} (m : PathMap α) (k : String) (h : k ∈ pmKeys m) :
    (pmFind? m k).isSome := by
  induction m with
  | nil => simp [pmKeys] at h
  | cons e r ih =>
    obtain ⟨k', v'⟩ := e
    by_cases h' : k' = k
    · simp [pmFind?, h']
    · have h2 : k ∈ pmKeys r := by
        simp [pmKeys] at h ⊢
        rcases h with h | h
        · exact absurd h.symm h'
        · exact h
      simpa [pmFind?, h'] using ih h2

theorem pmSetAll_frame {α : Type} (upd : PathMap α) (m : PathMap α) (q : String)
    (h : ∀ kv ∈ upd, kv.1 ≠ q) :
    pmFind? (pmSetAll m upd) q = pmFind? m q := by
  induction upd generalizing m with
  | nil => rfl
  | cons e r ih =>
    have he : e.1 ≠ q := h e (by simp)
    have hr : ∀ kv ∈ r, kv.1 ≠ q := fun kv hkv => h kv (by simp [hkv])
    simp only [pmSetAll, List.foldl_cons]
    rw [show (r.foldl (fun acc kv => pmSet acc kv.1 kv.2) (pmSet m e.1 e.2)) =
          pmSetAll (pmSet m e.1 e.2) r from rfl,
        ih (pmSet m e.1 e.2) hr, pmFind?_set_other _ _ _ _ he]

/-! ## The skip trie (`SkipNode`, manifest.py lines 52-176) -/

/-- Modelled from the spec: `fnmatch.fnmatchcase` (stdlib collaborator),
"shell-style wildcard matching (case-sensitive)": `*` matches any sequence,
`?` any single character, `[...]` a character class with `!` negation and
`-` ranges (a `]` directly after the opening `[`/`[!` is literal); an
unterminated `[` matches itself literally.  Defined with explicit fuel so the
definition is structurally recursive; the fuel bound is always sufficient. -/
def classElemMatch (c : Char) : List Char → Bool
  | a :: '-' :: b :: r => (a ≤ c && c ≤ b) || classElemMatch c r
  | a :: r => c = a || classElemMatch c r
  | [] => false

/-- Scan for the closing `]` of a character class, returning the class body
and the remainder of the pattern. -/
def classTake : List Char → Option (List Char × List Char)
  | [] => none
  | c :: cs =>
    if c = ']' then some ([], cs)
    else match classTake cs with
      | none => none
      | some (body, rest) => some (c :: body, rest)

def globGo : Nat → List Char → List Char → Bool
  | 0, _, _ => false
  | _ + 1, [], pat => pat.all (fun c => c = '*')
  | fuel + 1, c :: name, pat =>
    match pat with
    | [] => false
    | '*' :: ps => globGo fuel (c :: name) ps || globGo fuel name ('*' :: ps)
    | '?' :: ps => globGo fuel name ps
    | '[' :: ps =>
      let (neg, ps') := match ps with
        | '!' :: r => (true, r)
        | _ => (false, ps)
      let (lit, ps'') := match ps' with
        | ']' :: r => ([']'], r)
        | _ => ([], ps')
      match classTake ps'' with
      | none => c = '[' && globGo fuel name pat.tail
      | some (body, rest) =>
        (neg != (classElemMatch c (lit ++ body))) && globGo fuel name rest
    | p :: ps => c = p && globGo fuel name ps

/-- `fnmatchcase(name, pattern)`. -/
def fnmatchcase (name pat : String) : Bool :=
  globGo (name.data.length + pat.data.length + 1) name.data pat.data

/-- The skip trie: a node carries its `skip` flag and its children, a dict
from path segment (or glob pattern) to child node (manifest.py line 52-56). -/
inductive SkipNode where
  | mk (sk : Bool) (children : List (String × SkipNode))

def SkipNode.sk : SkipNode → Bool
  | .mk s _ => s

def SkipNode.children : SkipNode → PathMap SkipNode
  | .mk _ c => c

/-- One entry of `SkipNode.build`'s insertion loop (lines 77-81): walk/create a
node per path component (`setdefault(component, cls(node.skip))` — a lazily
created node inherits the current skip flag of its parent), then set the final
node's skip flag. -/
def insertSkipPath : SkipNode → List String → Bool → SkipNode
  | .mk _ c, [], sk => .mk sk c
  | .mk s c, comp :: rest, sk =>
    let child := (pmFind? c comp).getD (.mk s [])
    .mk s (pmSet c comp (insertSkipPath child rest sk))

/-- Stable insertion of an entry into a list sorted by ascending `countSlash`:
the entry goes after every entry of strictly smaller count and before the first
entry of greater-or-equal count among those inserted later.  Together with
`sortBySlashCount` this models Python's stable `sorted(items, key=count of "/")`
(line 72). -/
def insSlash (x : String × Bool) : List (String × Bool) → List (String × Bool)
  | [] => [x]
  | y :: ys => if countSlash y.1 < countSlash x.1 then y :: insSlash x ys else x :: y :: ys

def sortBySlashCount : List (String × Bool) → List (String × Bool)
  | [] => []
  | x :: xs => insSlash x (sortBySlashCount xs)

/-- `SkipNode.build(include, exclude)` (manifest.py lines 58-83). -/
def SkipNode.build (incl excl : List String) : SkipNode :=
  let items := incl.map (fun x => (x, false)) ++ excl.map (fun x => (x, true))
  (sortBySlashCount items).foldl
    (fun t e =>
      if e.1 = "" then .mk e.2 t.children
      else insertSkipPath t (strSplit '/' e.1) e.2)
    (.mk false [])

/-- First child whose key glob-matches `basename` (the `for child_path,
child_node in iteritems(node)` scan, lines 105-107: first match wins, in
insertion order). -/
def findGlobChild : PathMap SkipNode → String → Option SkipNode
  | [], _ => none
  | (k, c) :: r, b => if fnmatchcase b k then some c else findGlobChild r b

/-- The walk of `is_skipped_path` (lines 89-109): descend through all but the
last component, returning the inherited default as soon as a component is
missing; at the basename try an exact child, then a glob child, then fall back
to the deepest matched directory node's flag. -/
def ispWalk : SkipNode → List String → Bool
  | t, [] => t.sk
  | t, [basename] =>
    match pmFind? t.children basename with
    | some c => c.sk
    | none =>
      match findGlobChild t.children basename with
      | some c => c.sk
      | none => t.sk
  | t, comp :: comp' :: rest =>
    match pmFind? t.children comp with
    | some child => ispWalk child (comp' :: rest)
    | none => t.sk

/-- `SkipNode.is_skipped_path` (manifest.py lines 85-109). -/
def SkipNode.is_skipped_path (t : SkipNode) (path : String) : Bool :=
  if t.children.isEmpty then t.sk
  else ispWalk t (strSplit '/' path)

/-- Failure modes of `is_skipped_item`: the `assert url[0] == "/"` (an empty
URL makes the subscript itself fail with an IndexError), and the reference to
the undefined local variable `basename` on line 164. -/
inductive SkipErr where
  | assertionError
  | indexError
  | nameError
deriving DecidableEq

/-- The candidate loop of `is_skipped_item` (lines 168-176): for each basename
candidate try an exact child, then a glob child; after the loop fall back to
the directory default. -/
def checkCandidates (t : SkipNode) : List String → Bool
  | [] => t.sk
  | b :: bs =>
    match pmFind? t.children b with
    | some c => c.sk
    | none =>
      match findGlobChild t.children b with
      | some c => c.sk
      | none => checkCandidates t bs

/-- The walk of `is_skipped_item` (lines 152-176).  On reaching the basename
the candidate list is built: `basenames = [path_components[-1]]`; when the URL
has a non-empty query, line 164 evaluates `basename[-1]` — but `basename` is
only bound later (by the `for basename in basenames` loop on line 168), so the
source raises an UnboundLocalError there, embedded as `SkipErr.nameError`;
when the URL has a fragment (and no query, otherwise the error fires first)
line 166 appends `basenames[-1] + "#" + fragment`. -/
def isiWalk (t : SkipNode) (query fragment : String) : List String → Except SkipErr Bool
  | [] => .ok t.sk
  | [basename] =>
    if query ≠ "" then .error .nameError
    else
      let basenames := [basename] ++ (if fragment ≠ "" then [basename ++ "#" ++ fragment] else [])
      .ok (checkCandidates t basenames)
  | comp :: comp' :: rest =>
    match pmFind? t.children comp with
    | some child => isiWalk child query fragment (comp' :: rest)
    | none => .ok t.sk

/-- `SkipNode.is_skipped_item` (manifest.py lines 137-176).  The item argument
is embedded by its URL attribute: `none` stands for an item without a `url`
attribute (the `except AttributeError` case). -/
def SkipNode.is_skipped_item (t : SkipNode) (itemUrl : Option String) : Except SkipErr Bool :=
  if t.children.isEmpty then .ok t.sk
  else
    match itemUrl with
    | none => .ok false
    | some url =>
      match url.data with
      | [] => .error .indexError
      | c :: _ =>
        if c ≠ '/' then .error .assertionError
        else
          let (pathPart, query, fragment) := urlsplit3 url
          let comps := (splitCh '/' pathPart.data.tail).map String.mk
          isiWalk t query fragment comps

/-! ## Claims about the skip trie (C5, C6, C7) -/

/-- **C5** (failing input): for the non-empty trie built over child `"a"` and
the item URL `"/a?x"` (URL starts with `"/"`, non-empty query), the walk
reaches the basename and line 164 of the source evaluates `basename[-1]` with
`basename` unbound, so `is_skipped_item` raises instead of returning a
boolean: the embedded function yields `SkipErr.nameError`, not an `ok` result.
The claim states a boolean is returned for every such item; the parallel
(correct) use of `basenames[-1]` on line 166 shows the intent the claim
describes. -/
theorem is_skipped_item_query_raises :
    SkipNode.is_skipped_item (.mk false [("a", .mk true [])]) (some "/a?x")
      = Except.error SkipErr.nameError ∧
    ∀ b : Bool, SkipNode.is_skipped_item (.mk false [("a", .mk true [])]) (some "/a?x")
      ≠ Except.ok b := by
  refine ⟨rfl, ?_⟩
  intro b h
  rw [show SkipNode.is_skipped_item (.mk false [("a", .mk true [])]) (some "/a?x")
        = Except.error SkipErr.nameError from rfl] at h
  cases h

/-- **C6** (counterexample): the empty-trie check on line 138 precedes the
URL-attribute probe, so a childless trie whose root has `skip=true` returns
`true` even for an item that lacks a URL attribute — the claim says `false`
is returned for every trie. -/
theorem is_skipped_item_no_url_cex :
    SkipNode.is_skipped_item (.mk true []) none = Except.ok true ∧
    SkipNode.is_skipped_item (.mk true []) none ≠ Except.ok false := by
  refine ⟨rfl, ?_⟩
  intro h
  rw [show SkipNode.is_skipped_item (.mk true []) none = Except.ok true from rfl] at h
  simp at h

/-- **C6** (amended): for every trie with at least one child, an item lacking
a URL attribute is never skipped (`is_skipped_item` returns `false`), and an
item whose URL is non-empty and does not start with `"/"` makes
`is_skipped_item` fail with the assertion error of line 146; a childless trie
instead returns its root's skip flag without examining the item at all. -/
theorem is_skipped_item_guards (t : SkipNode) (h : t.children.isEmpty = false) :
    SkipNode.is_skipped_item t none = Except.ok false ∧
    ∀ (u : String) (c : Char) (cs : List Char),
      u.data = c :: cs → c ≠ '/' →
      SkipNode.is_skipped_item t (some u) = Except.error SkipErr.assertionError := by
  constructor
  · simp [SkipNode.is_skipped_item, h]
  · intro u c cs hu hc
    simp [SkipNode.is_skipped_item, h, hu, hc]

/-- Witness for `is_skipped_item_guards` at the concrete trie with one child
and the concrete URL `"b"`. -/
theorem is_skipped_item_guards_witness :
    SkipNode.is_skipped_item (.mk false [("a", .mk true [])]) none = Except.ok false ∧
    SkipNode.is_skipped_item (.mk false [("a", .mk true [])]) (some "b")
      = Except.error SkipErr.assertionError := by
  have h := is_skipped_item_guards (.mk false [("a", .mk true [])]) (by rfl)
  exact ⟨h.1, h.2 "b" 'b' [] rfl (by decide)⟩

/-- **C7**: with `includes=["a/b"]` and `excludes=["a"]`, the shallow exclude
is inserted first (ascending segment count) and sets the subtree default; the
deeper include then overrides only its own node, so `"a/b/c"` is not skipped
while `"a/x"` is. -/
theorem build_override_include_exclude :
    SkipNode.is_skipped_path (SkipNode.build ["a/b"] ["a"]) "a/b/c" = false ∧
    SkipNode.is_skipped_path (SkipNode.build ["a/b"] ["a"]) "a/x" = true := by
  exact ⟨rfl, rfl⟩

/-! ## Test items and kinds (`item_classes`, manifest.py lines 41-49) -/

/-- The nine test-item kinds, the keys of `item_classes`. -/
inductive ItemType where
  | testharness
  | reftest
  | reftest_node
  | manual
  | stub
  | wdspec
  | conformancechecker
  | visual
  | support
deriving DecidableEq

/-- The kinds in the insertion order of `item_classes`. -/
def kindList : List ItemType :=
  [.testharness, .reftest, .reftest_node, .manual, .stub, .wdspec,
   .conformancechecker, .visual, .support]

def kindName : ItemType → String
  | .testharness => "testharness"
  | .reftest => "reftest"
  | .reftest_node => "reftest_node"
  | .manual => "manual"
  | .stub => "stub"
  | .wdspec => "wdspec"
  | .conformancechecker => "conformancechecker"
  | .visual => "visual"
  | .support => "support"

def kindOfString (s : String) : Option ItemType :=
  kindList.find? (fun t => kindName t = s)

/-- `reftest_types = ("reftest", "reftest_node")` (line 357). -/
def reftest_types : List ItemType := [.reftest, .reftest_node]

/-- Modelled from the spec: a test item (`tools/manifest/item.py`, which is
not under `src/`).  Per §3, an item carries its owning path, a kind tag, a URL
and — for the comparison kinds — an ordered list of (reference-URL,
comparison-operator) pairs; items are immutable value objects and
reclassification produces a new value of the sibling kind.  The `item_type`
field embeds the dynamic class tag (`isinstance(item, RefTest)` is
`item_type = reftest`, `isinstance(item, RefTestNode)` is
`item_type = reftest_node`). -/
structure ManifestItem where
  path : String
  url : String
  item_type : ItemType
  references : List (String × String)
deriving DecidableEq

/-- Modelled from the spec: `RefTest.to_RefTestNode` — a new value of the
node kind with the same payload. -/
def toRefTestNode (i : ManifestItem) : ManifestItem :=
  { i with item_type := .reftest_node }

/-- Modelled from the spec: `RefTestNode.to_RefTest` — a new value of the
root kind with the same payload. -/
def toRefTest (i : ManifestItem) : ManifestItem :=
  { i with item_type := .reftest }

/-! ## The reference-graph resolver (`Manifest._compute_reftests`, lines 438-465) -/

/-- `has_inbound`: every reference URL cited by any staged item's reference
list (lines 440-443). -/
def hasInboundUrls : List (ManifestItem × String) → List String
  | [] => []
  | (it, _) :: r => it.references.map Prod.fst ++ hasInboundUrls r

/-- `defaultdict(set)` bucket insertion: `m[p].add(x)` files `x` under `p`,
creating the bucket when absent and ignoring an already-present member. -/
def addToBucket (m : PathMap (List ManifestItem)) (p : String) (x : ManifestItem) :
    PathMap (List ManifestItem) :=
  let bucket := (pmFind? m p).getD []
  if x ∈ bucket then m else pmSet m p (bucket ++ [x])

/-- Accumulators of the resolver loop: `(reftests, references, changed_hashes)`. -/
structure CRAcc where
  reftests : PathMap (List ManifestItem)
  references : PathMap (List ManifestItem)
  changed_hashes : PathMap (String × ItemType)

/-- One iteration of the resolver loop (lines 449-463): a staged item whose
URL has an inbound citation is a reference (converted to the node variant if
it is a root, recording the kind change); otherwise it is a root (converted
from the node variant if needed).  The reverse-URL cache rebuilt on line 463
is a derived value not needed by any claim and is elided. -/
def crStep (inbound : List String) (acc : CRAcc) : ManifestItem × String → CRAcc
  | (it, file_hash) =>
    if it.url ∈ inbound then
      { acc with
        references := addToBucket acc.references
          (if it.item_type = ItemType.reftest then toRefTestNode it else it).path
          (if it.item_type = ItemType.reftest then toRefTestNode it else it),
        changed_hashes := if it.item_type = ItemType.reftest
          then pmSet acc.changed_hashes (toRefTestNode it).path
                 (file_hash, (toRefTestNode it).item_type)
          else acc.changed_hashes }
    else
      { acc with
        reftests := addToBucket acc.reftests
          (if it.item_type = ItemType.reftest_node then toRefTest it else it).path
          (if it.item_type = ItemType.reftest_node then toRefTest it else it),
        changed_hashes := if it.item_type = ItemType.reftest_node
          then pmSet acc.changed_hashes (toRefTest it).path
                 (file_hash, (toRefTest it).item_type)
          else acc.changed_hashes }

/-- `Manifest._compute_reftests(reftest_nodes)` (manifest.py lines 438-465):
partition the staged comparison items into roots and references. -/
def Manifest.compute_reftests (reftest_nodes : List (ManifestItem × String)) : CRAcc :=
  reftest_nodes.foldl (crStep (hasInboundUrls reftest_nodes)) ⟨[], [], []⟩

/-- The classification the resolver applies to one staged item: already-cited
items become (or stay) the node variant, others become (or stay) the root
variant. -/
def convertByInbound (inbound : List String) (it : ManifestItem) : ManifestItem :=
  if it.url ∈ inbound then
    (if it.item_type = ItemType.reftest then toRefTestNode it else it)
  else
    (if it.item_type = ItemType.reftest_node then toRefTest it else it)

/-- Membership of an item in an output map, looked up at the item's own path
(the resolver always files an item under its `path`). -/
def bucketHas (m : PathMap (List ManifestItem)) (x : ManifestItem) : Bool :=
  match pmFind? m x.path with
  | some l => x ∈ l
  | none => false

theorem bucketHas_iff (m : PathMap (List ManifestItem)) (y : ManifestItem) :
    bucketHas m y = true ↔ ∃ l, pmFind? m y.path = some l ∧ y ∈ l := by
  unfold bucketHas
  cases h : pmFind? m y.path with
  | none => simp
  | some l => simp [h]

theorem convertByInbound_url (inbound : List String) (it : ManifestItem) :
    (convertByInbound inbound it).url = it.url := by
  unfold convertByInbound toRefTestNode toRefTest
  split <;> split <;> rfl

theorem bucketHas_addToBucket_mono (m : PathMap (List ManifestItem)) (p : String)
    (x y : ManifestItem) (h : bucketHas m y = true) :
    bucketHas (addToBucket m p x) y = true := by
  rw [bucketHas_iff] at h ⊢
  obtain ⟨l, hf, hy⟩ := h
  unfold addToBucket
  by_cases hx : x ∈ (pmFind? m p).getD []
  · simp only [hx, if_true]
    exact ⟨l, hf, hy⟩
  · simp only [hx, if_false]
    by_cases hp : y.path = p
    · subst hp
      rw [pmFind?_set_self, hf]
      exact ⟨l ++ [x], rfl, List.mem_append_left _ hy⟩
    · rw [pmFind?_set_other _ _ _ _ (fun he => hp he.symm)]
      exact ⟨l, hf, hy⟩

theorem bucketHas_addToBucket_self (m : PathMap (List ManifestItem)) (x : ManifestItem) :
    bucketHas (addToBucket m x.path x) x = true := by
  rw [bucketHas_iff]
  unfold addToBucket
  by_cases hx : x ∈ (pmFind? m x.path).getD []
  · simp only [hx, if_true]
    cases hf : pmFind? m x.path with
    | none => rw [hf] at hx; simp at hx
    | some l => exact ⟨l, rfl, by rw [hf] at hx; simpa using hx⟩
  · simp only [hx, if_false]
    exact ⟨_, pmFind?_set_self _ _ _, List.mem_append_right _ (by simp)⟩

theorem bucketHas_addToBucket_inv (m : PathMap (List ManifestItem)) (p : String)
    (x y : ManifestItem) (h : bucketHas (addToBucket m p x) y = true) :
    bucketHas m y = true ∨ y = x := by
  rw [bucketHas_iff] at h
  obtain ⟨l, hf, hy⟩ := h
  unfold addToBucket at hf
  by_cases hx : x ∈ (pmFind? m p).getD []
  · simp only [hx, if_true] at hf
    exact Or.inl ((bucketHas_iff m y).mpr ⟨l, hf, hy⟩)
  · simp only [hx, if_false] at hf
    by_cases hp : y.path = p
    · subst hp
      rw [pmFind?_set_self] at hf
      obtain rfl : (pmFind? m y.path).getD [] ++ [x] = l := by injection hf
      rcases List.mem_append.mp hy with hy | hy
      · cases hfm : pmFind? m y.path with
        | none => rw [hfm] at hy; simp at hy
        | some l0 =>
          rw [hfm] at hy
          exact Or.inl ((bucketHas_iff m y).mpr ⟨l0, hfm, by simpa using hy⟩)
      · exact Or.inr (by simpa using hy)
    · rw [pmFind?_set_other _ _ _ _ (fun he => hp he.symm)] at hf
      exact Or.inl ((bucketHas_iff m y).mpr ⟨l, hf, hy⟩)

theorem crStep_references_mono (inbound : List String) (acc : CRAcc)
    (e : ManifestItem × String) (y : ManifestItem)
    (h : bucketHas acc.references y = true) :
    bucketHas (crStep inbound acc e).references y = true := by
  obtain ⟨it, hs⟩ := e
  unfold crStep
  by_cases hc : it.url ∈ inbound
  · simp only [hc, if_true]
    exact bucketHas_addToBucket_mono _ _ _ _ h
  · simp only [hc, if_false]
    exact h

theorem crStep_reftests_mono (inbound : List String) (acc : CRAcc)
    (e : ManifestItem × String) (y : ManifestItem)
    (h : bucketHas acc.reftests y = true) :
    bucketHas (crStep inbound acc e).reftests y = true := by
  obtain ⟨it, hs⟩ := e
  unfold crStep
  by_cases hc : it.url ∈ inbound
  · simp only [hc, if_true]
    exact h
  · simp only [hc, if_false]
    exact bucketHas_addToBucket_mono _ _ _ _ h

theorem crFold_references_mono (inbound : List String) (l : List (ManifestItem × String))
    (acc : CRAcc) (y : ManifestItem) (h : bucketHas acc.references y = true) :
    bucketHas (l.foldl (crStep inbound) acc).references y = true := by
  induction l generalizing acc with
  | nil => exact h
  | cons e r ih => exact ih _ (crStep_references_mono _ _ _ _ h)

theorem crFold_reftests_mono (inbound : List String) (l : List (ManifestItem × String))
    (acc : CRAcc) (y : ManifestItem) (h : bucketHas acc.reftests y = true) :
    bucketHas (l.foldl (crStep inbound) acc).reftests y = true := by
  induction l generalizing acc with
  | nil => exact h
  | cons e r ih => exact ih _ (crStep_reftests_mono _ _ _ _ h)

theorem crStep_self_cited (inbound : List String) (acc : CRAcc)
    (it : ManifestItem) (hs : String) (hc : it.url ∈ inbound) :
    bucketHas (crStep inbound acc (it, hs)).references (convertByInbound inbound it) = true := by
  unfold crStep convertByInbound
  simp only [hc, if_true]
  exact bucketHas_addToBucket_self _ _

theorem crStep_self_uncited (inbound : List String) (acc : CRAcc)
    (it : ManifestItem) (hs : String) (hc : it.url ∉ inbound) :
    bucketHas (crStep inbound acc (it, hs)).reftests (convertByInbound inbound it) = true := by
  unfold crStep convertByInbound
  simp only [hc, if_false]
  exact bucketHas_addToBucket_self _ _

theorem crFold_mem (inbound : List String) (l : List (ManifestItem × String))
    (acc : CRAcc) (it : ManifestItem) (hs : String) (hmem : (it, hs) ∈ l) :
    (it.url ∈ inbound →
      bucketHas (l.foldl (crStep inbound) acc).references (convertByInbound inbound it) = true) ∧
    (it.url ∉ inbound →
      bucketHas (l.foldl (crStep inbound) acc).reftests (convertByInbound inbound it) = true) := by
  induction l generalizing acc with
  | nil => simp at hmem
  | cons e r ih =>
    rcases List.mem_cons.mp hmem with he | hr
    · subst he
      constructor
      · intro hc
        rw [List.foldl_cons]
        exact crFold_references_mono _ _ _ _ (crStep_self_cited _ _ _ _ hc)
      · intro hc
        rw [List.foldl_cons]
        exact crFold_reftests_mono _ _ _ _ (crStep_self_uncited _ _ _ _ hc)
    · exact ih _ hr

/-- The resolver's output-map invariant: every item filed under `references`
has an inbound citation, every item filed under `reftests` has none. -/
def CRInv (inbound : List String) (acc : CRAcc) : Prop :=
  (∀ y, bucketHas acc.references y = true → y.url ∈ inbound) ∧
  (∀ y, bucketHas acc.reftests y = true → y.url ∉ inbound)

theorem crStep_inv (inbound : List String) (acc : CRAcc) (e : ManifestItem × String)
    (h : CRInv inbound acc) : CRInv inbound (crStep inbound acc e) := by
  obtain ⟨h1, h2⟩ := h
  obtain ⟨it, hs⟩ := e
  unfold crStep
  by_cases hc : it.url ∈ inbound
  · simp only [hc, if_true]
    refine ⟨?_, h2⟩
    intro y hy
    rcases bucketHas_addToBucket_inv _ _ _ _ hy with hy | rfl
    · exact h1 y hy
    · have hu : (if it.item_type = ItemType.reftest then toRefTestNode it else it).url
          = it.url := by unfold toRefTestNode; split <;> rfl
      rw [hu]; exact hc
  · simp only [hc, if_false]
    refine ⟨h1, ?_⟩
    intro y hy
    rcases bucketHas_addToBucket_inv _ _ _ _ hy with hy | rfl
    · exact h2 y hy
    · have hu : (if it.item_type = ItemType.reftest_node then toRefTest it else it).url
          = it.url := by unfold toRefTest; split <;> rfl
      rw [hu]; exact hc

theorem crFold_inv (inbound : List String) (l : List (ManifestItem × String))
    (acc : CRAcc) (h : CRInv inbound acc) :
    CRInv inbound (l.foldl (crStep inbound) acc) := by
  induction l generalizing acc with
  | nil => exact h
  | cons e r ih => exact ih _ (crStep_inv _ _ _ h)

theorem mem_hasInboundUrls (u : String) (nodes : List (ManifestItem × String)) :
    u ∈ hasInboundUrls nodes ↔ ∃ e ∈ nodes, u ∈ e.1.references.map Prod.fst := by
  induction nodes with
  | nil => simp [hasInboundUrls]
  | cons e r ih =>
    obtain ⟨it, hs⟩ := e
    simp only [hasInboundUrls, List.mem_append, ih]
    constructor
    · rintro (h | ⟨e', he', hu⟩)
      · exact ⟨(it, hs), by simp, h⟩
      · exact ⟨e', by simp [he'], hu⟩
    · rintro ⟨e', he', hu⟩
      rcases List.mem_cons.mp he' with rfl | he'
      · exact Or.inl hu
      · exact Or.inr ⟨e', he', hu⟩

/-! ## Claim C1: the reference/root partition -/

/-- A self-citing comparison item: its own reference list contains its own
URL, and no other item exists. -/
def selfCiteItem : ManifestItem := ⟨"a", "/a", .reftest, [("/a", "==")]⟩

/-- **C1** (counterexample): for the single-pair input whose item cites its
own URL, the resolver files the item under `references` (the `has_inbound` set
on lines 441-443 collects the reference lists of *all* staged items, the
item's own included), yet no pair with a *distinct* item cites it — so the
claim's "references iff some other item cites the URL" fails at this input. -/
theorem compute_reftests_other_cites_cex :
    ¬ (bucketHas (Manifest.compute_reftests [(selfCiteItem, "h")]).references
         (convertByInbound (hasInboundUrls [(selfCiteItem, "h")]) selfCiteItem) = true ↔
       ∃ e ∈ [(selfCiteItem, "h")],
         e.1 ≠ selfCiteItem ∧ selfCiteItem.url ∈ e.1.references.map Prod.fst) := by
  intro h
  have h1 : bucketHas (Manifest.compute_reftests [(selfCiteItem, "h")]).references
      (convertByInbound (hasInboundUrls [(selfCiteItem, "h")]) selfCiteItem) = true := by
    decide
  obtain ⟨e, he, hne, _⟩ := h.mp h1
  have he' : e = (selfCiteItem, "h") := List.mem_singleton.mp he
  exact hne (by rw [he'])

/-- **C1** (amended): for every input list of `(item, fileHash)` pairs, each
staged item — after the root/node conversion the resolver applies to it —
appears in at least one and at most one of the two output maps
`{reftests, references}`, and it is filed under `references` iff some pair in
the input (possibly the item's own) has the item's URL in its reference list;
being cited always wins, even for an item that also cites others. -/
theorem compute_reftests_partition (nodes : List (ManifestItem × String))
    (it : ManifestItem) (hs : String) (hmem : (it, hs) ∈ nodes) :
    (bucketHas (Manifest.compute_reftests nodes).references
        (convertByInbound (hasInboundUrls nodes) it) = true ∨
     bucketHas (Manifest.compute_reftests nodes).reftests
        (convertByInbound (hasInboundUrls nodes) it) = true) ∧
    ¬ (bucketHas (Manifest.compute_reftests nodes).references
        (convertByInbound (hasInboundUrls nodes) it) = true ∧
       bucketHas (Manifest.compute_reftests nodes).reftests
        (convertByInbound (hasInboundUrls nodes) it) = true) ∧
    (bucketHas (Manifest.compute_reftests nodes).references
        (convertByInbound (hasInboundUrls nodes) it) = true ↔
      ∃ e ∈ nodes, it.url ∈ e.1.references.map Prod.fst) := by
  simp only [Manifest.compute_reftests]
  have hinv := crFold_inv (hasInboundUrls nodes) nodes ⟨[], [], []⟩
    ⟨fun y hy => by simp [bucketHas, pmFind?] at hy,
     fun y hy => by simp [bucketHas, pmFind?] at hy⟩
  have hm := crFold_mem (hasInboundUrls nodes) nodes ⟨[], [], []⟩ it hs hmem
  obtain ⟨hinv1, hinv2⟩ := hinv
  by_cases hc : it.url ∈ hasInboundUrls nodes
  · have h1 := hm.1 hc
    refine ⟨Or.inl h1, ?_, ?_⟩
    · rintro ⟨_, h2⟩
      have h3 := hinv2 _ h2
      rw [convertByInbound_url] at h3
      exact h3 hc
    · exact ⟨fun _ => (mem_hasInboundUrls it.url nodes).mp hc, fun _ => h1⟩
  · have h1 := hm.2 hc
    refine ⟨Or.inr h1, ?_, ?_⟩
    · rintro ⟨h2, _⟩
      have h3 := hinv1 _ h2
      rw [convertByInbound_url] at h3
      exact hc h3
    · constructor
      · intro h2
        have h3 := hinv1 _ h2
        rw [convertByInbound_url] at h3
        exact absurd h3 hc
      · intro hex
        exact absurd ((mem_hasInboundUrls it.url nodes).mpr hex) hc

/-- A cited item and the root that cites it, for the partition witness. -/
def citedRootItem : ManifestItem := ⟨"a", "/a", .reftest, [("/b", "==")]⟩

def citedRefItem : ManifestItem := ⟨"b", "/b", .reftest, []⟩

/-- Witness for `compute_reftests_partition`: the two-item graph where `/a`
cites `/b`, instantiated at the cited item. -/
theorem compute_reftests_partition_witness :
    (bucketHas (Manifest.compute_reftests [(citedRootItem, "h1"), (citedRefItem, "h2")]).references
        (convertByInbound (hasInboundUrls [(citedRootItem, "h1"), (citedRefItem, "h2")]) citedRefItem) = true ∨
     bucketHas (Manifest.compute_reftests [(citedRootItem, "h1"), (citedRefItem, "h2")]).reftests
        (convertByInbound (hasInboundUrls [(citedRootItem, "h1"), (citedRefItem, "h2")]) citedRefItem) = true) ∧
    ¬ (bucketHas (Manifest.compute_reftests [(citedRootItem, "h1"), (citedRefItem, "h2")]).references
        (convertByInbound (hasInboundUrls [(citedRootItem, "h1"), (citedRefItem, "h2")]) citedRefItem) = true ∧
       bucketHas (Manifest.compute_reftests [(citedRootItem, "h1"), (citedRefItem, "h2")]).reftests
        (convertByInbound (hasInboundUrls [(citedRootItem, "h1"), (citedRefItem, "h2")]) citedRefItem) = true) ∧
    (bucketHas (Manifest.compute_reftests [(citedRootItem, "h1"), (citedRefItem, "h2")]).references
        (convertByInbound (hasInboundUrls [(citedRootItem, "h1"), (citedRefItem, "h2")]) citedRefItem) = true ↔
      ∃ e ∈ [(citedRootItem, "h1"), (citedRefItem, "h2")],
        citedRefItem.url ∈ e.1.references.map Prod.fst) :=
  compute_reftests_partition [(citedRootItem, "h1"), (citedRefItem, "h2")]
    citedRefItem "h2" (by simp)

/-! ## The manifest store and the reconciliation engine
(`Manifest`, manifest.py lines 288-476) -/

def CURRENT_VERSION : Int := 7

/-- The per-kind indices (`ManifestData` viewed as a total map over the nine
fixed kinds; its fixed-key dict behaviour is embedded separately as
`ManifestDataDict` below). -/
abbrev MData := ItemType → PathMap (List ManifestItem)

def mdSet (d : MData) (t : ItemType) (v : PathMap (List ManifestItem)) : MData :=
  fun t' => if t' = t then v else d t'

/-- The manifest store: url base, the path → (hash, kind) table and one index
per kind (lines 288-295; the lazily derived `_reftest_nodes_by_url` cache is
not part of the modelled state). -/
structure Manifest where
  url_base : String
  path_hash : PathMap (String × ItemType)
  data : MData

/-- An observed file in the update stream: its `rel_path`, content `hash` and
the result of the external item-extraction collaborator
(`source_file.manifest_items()`), carried as data. -/
structure SourceFile where
  rel_path : String
  hash : String
  manifest_items : ItemType × List ManifestItem

/-- An entry of the observation stream (manifest.py line 359): `(path, False)`
for a path known unchanged, `(SourceFile, True)` for a path to recompute. -/
inductive Obs where
  | old (rel_path : String)
  | new (sf : SourceFile)

def obsPath : Obs → String
  | .old p => p
  | .new sf => sf.rel_path

/-- The mutable locals of the update loop (lines 344-356). -/
structure LoopState where
  reftest_nodes : List (ManifestItem × String)
  seen : List String
  changed : Bool
  reftest_changes : Bool
  path_hash : PathMap (String × ItemType)
  data : MData

/-- `set.add`. -/
def setAdd (l : List String) (x : String) : List String :=
  if x ∈ l then l else x :: l

/-- One iteration of `Manifest.update`'s main loop (lines 359-402).  `none`
embeds a raised exception: the `assert rel_path in path_hash` of line 363, and
the `KeyError` of the unguarded index lookups/deletes on lines 366, 383
and 389. -/
def updateStep (st : LoopState) : Obs → Option LoopState
  | .old rel_path =>
    let seen := setAdd st.seen rel_path
    match pmFind? st.path_hash rel_path with
    | none => none
    | some (old_hash, old_type) =>
      if old_type ∈ reftest_types then
        match pmFind? (st.data old_type) rel_path with
        | none => none
        | some manifest_items =>
          some { st with
            seen := seen,
            reftest_nodes := st.reftest_nodes ++ manifest_items.map (fun i => (i, old_hash)) }
      else some { st with seen := seen }
  | .new sf =>
    let rel_path := sf.rel_path
    let seen := setAdd st.seen rel_path
    let file_hash := sf.hash
    match pmFind? st.path_hash rel_path with
    | some (old_hash, old_type) =>
      if old_hash ≠ file_hash then
        let new_type := sf.manifest_items.1
        let manifest_items := sf.manifest_items.2
        let delRes : Option (MData × Bool) :=
          if new_type ≠ old_type then
            match pmFind? (st.data old_type) rel_path with
            | none => none
            | some _ =>
              some (mdSet st.data old_type (pmErase (st.data old_type) rel_path),
                    st.reftest_changes || (old_type ∈ reftest_types))
          else some (st.data, st.reftest_changes)
        match delRes with
        | none => none
        | some (data1, rc1) =>
          if new_type ∈ reftest_types then
            some { st with
              seen := seen,
              reftest_nodes := st.reftest_nodes ++ manifest_items.map (fun i => (i, file_hash)),
              reftest_changes := true,
              data := data1,
              path_hash := pmSet st.path_hash rel_path (file_hash, new_type),
              changed := true }
          else
            some { st with
              seen := seen,
              data := mdSet data1 new_type (pmSet (data1 new_type) rel_path manifest_items),
              reftest_changes := rc1,
              path_hash := pmSet st.path_hash rel_path (file_hash, new_type),
              changed := true }
      else
        if old_type ∈ reftest_types then
          match pmFind? (st.data old_type) rel_path with
          | none => none
          | some manifest_items =>
            some { st with
              seen := seen,
              reftest_nodes := st.reftest_nodes ++ manifest_items.map (fun i => (i, file_hash)) }
        else some { st with seen := seen }
    | none =>
      let new_type := sf.manifest_items.1
      let manifest_items := sf.manifest_items.2
      if new_type ∈ reftest_types then
        some { st with
          seen := seen,
          reftest_nodes := st.reftest_nodes ++ manifest_items.map (fun i => (i, file_hash)),
          reftest_changes := true,
          path_hash := pmSet st.path_hash rel_path (file_hash, new_type),
          changed := true }
      else
        some { st with
          seen := seen,
          data := mdSet st.data new_type (pmSet (st.data new_type) rel_path manifest_items),
          path_hash := pmSet st.path_hash rel_path (file_hash, new_type),
          changed := true }

def updateLoop (st : LoopState) : List Obs → Option LoopState
  | [] => some st
  | o :: rest =>
    match updateStep st o with
    | none => none
    | some st' => updateLoop st' rest

/-- `self._data.paths()` (lines 279-285, 355): the set of all paths holding
items of any kind; embedded as a duplicate-free list. -/
def Manifest.prevFiles (m : Manifest) : List String :=
  (kindList.foldr (fun t acc => pmKeys (m.data t) ++ acc) []).dedup

def initLoop (m : Manifest) : LoopState :=
  ⟨[], [], false, false, m.path_hash, m.data⟩

/-- Handling of one deleted path (lines 407-420): a path with a FileRecord is
removed from the table and from its recorded kind's index (absence tolerated,
matching the `try/except KeyError`), flagging a graph recompute for comparison
kinds; a path without a FileRecord is scanned out of every index. -/
def delStep (st : LoopState) (p : String) : LoopState :=
  match pmFind? st.path_hash p with
  | some (_, old_type) =>
    { st with
      reftest_changes := st.reftest_changes || (old_type ∈ reftest_types),
      path_hash := pmErase st.path_hash p,
      data := mdSet st.data old_type (pmErase (st.data old_type) p) }
  | none =>
    { st with data := fun t => pmErase (st.data t) p }

/-- The tail of `Manifest.update` (lines 404-436): deletion detection against
the pre-loop path set, then — when any comparison-kind item was touched — the
wholesale replacement of the two comparison indices by the resolver's output
and the merge of its changed-kind records into the FileRecord table. -/
def updateFinish (ub : String) (prev : List String) (st0 : LoopState) : Manifest × Bool :=
  let deleted := prev.filter (fun p => !(decide (p ∈ st0.seen)))
  let changed := st0.changed || !deleted.isEmpty
  let st := deleted.foldl delStep st0
  if st.reftest_changes then
    let out := Manifest.compute_reftests st.reftest_nodes
    (⟨ub,
      pmSetAll st.path_hash out.changed_hashes,
      mdSet (mdSet st.data .reftest out.reftests) .reftest_node out.references⟩,
     changed)
  else (⟨ub, st.path_hash, st.data⟩, changed)

/-- `Manifest.update(tree)` (manifest.py lines 336-436), embedded as a pure
function from the prior store and the observation stream to the new store and
the `changed` verdict; `none` embeds an exception escaping the loop. -/
def Manifest.update (m : Manifest) (tree : List Obs) : Option (Manifest × Bool) :=
  match updateLoop (initLoop m) tree with
  | none => none
  | some st => some (updateFinish m.url_base (Manifest.prevFiles m) st)

/-- The serialized document produced by `Manifest.to_json` (lines 467-476):
kinds appear (in `item_classes` order) only when their index is non-empty;
the per-kind serialized form (`TypeData.to_json`, delegated to the missing
typedata module) is modelled from the spec as the index itself. -/
structure JsonOut where
  url_base : String
  paths : List (String × (String × String))
  items : List (String × PathMap (List ManifestItem))
  version : Int
deriving DecidableEq

def Manifest.to_json (m : Manifest) : JsonOut :=
  ⟨m.url_base,
   m.path_hash.map (fun kv => (kv.1, (kv.2.1, kindName kv.2.2))),
   (kindList.filter (fun t => !(m.data t).isEmpty)).map (fun t => (kindName t, m.data t)),
   CURRENT_VERSION⟩

/-! ## Claim C2: idempotence of an unchanged pass -/

theorem setAdd_mem (l : List String) (x q : String) :
    q ∈ setAdd l x ↔ q = x ∨ q ∈ l := by
  unfold setAdd
  by_cases h : x ∈ l
  · simp only [h, if_true]
    constructor
    · exact fun hq => Or.inr hq
    · rintro (rfl | hq)
      · exact h
      · exact hq
  · simp [h, List.mem_cons]

/-- A stream made only of `recompute=false` entries whose paths all have
FileRecords (with comparison-kind records backed by their index) succeeds and
leaves every component of the loop state unchanged except `seen` and the
staged list. -/
theorem updateLoop_old_only (ps : List String) (st : LoopState)
    (hrec : ∀ p ∈ ps, ∃ hs t, pmFind? st.path_hash p = some (hs, t) ∧
       (t ∈ reftest_types → (pmFind? (st.data t) p).isSome = true)) :
    ∃ st', updateLoop st (ps.map Obs.old) = some st' ∧
      st'.path_hash = st.path_hash ∧ st'.data = st.data ∧
      st'.changed = st.changed ∧ st'.reftest_changes = st.reftest_changes ∧
      (∀ q, q ∈ st'.seen ↔ q ∈ st.seen ∨ q ∈ ps) := by
  induction ps generalizing st with
  | nil =>
    exact ⟨st, rfl, rfl, rfl, rfl, rfl, fun q => by simp⟩
  | cons p r ih =>
    obtain ⟨hs, t, hf, hidx⟩ := hrec p (by simp)
    have hstep : ∃ st1, updateStep st (Obs.old p) = some st1 ∧
        st1.path_hash = st.path_hash ∧ st1.data = st.data ∧
        st1.changed = st.changed ∧ st1.reftest_changes = st.reftest_changes ∧
        st1.seen = setAdd st.seen p := by
      by_cases ht : t ∈ reftest_types
      · obtain ⟨items, hits⟩ := Option.isSome_iff_exists.mp (hidx ht)
        refine ⟨{ st with
            seen := setAdd st.seen p,
            reftest_nodes := st.reftest_nodes ++ items.map (fun i => (i, hs)) },
          ?_, rfl, rfl, rfl, rfl, rfl⟩
        simp only [updateStep, hf]
        rw [if_pos ht]
        simp only [hits]
      · refine ⟨{ st with seen := setAdd st.seen p }, ?_, rfl, rfl, rfl, rfl, rfl⟩
        simp only [updateStep, hf]
        rw [if_neg ht]
    obtain ⟨st1, hst1, hph1, hdata1, hch1, hrc1, hseen1⟩ := hstep
    have hrec' : ∀ q ∈ r, ∃ hs' t', pmFind? st1.path_hash q = some (hs', t') ∧
        (t' ∈ reftest_types → (pmFind? (st1.data t') q).isSome = true) := by
      intro q hq
      obtain ⟨hs', t', hf', hidx'⟩ := hrec q (by simp [hq])
      exact ⟨hs', t', by rw [hph1]; exact hf', by rw [hdata1]; exact hidx'⟩
    obtain ⟨st', hst', h1, h2, h3, h4, h5⟩ := ih st1 hrec'
    refine ⟨st', ?_, by rw [h1, hph1], by rw [h2, hdata1],
      by rw [h3, hch1], by rw [h4, hrc1], ?_⟩
    · simp only [List.map_cons, updateLoop, hst1]
      exact hst'
    · intro q
      rw [h5 q, hseen1, setAdd_mem]
      simp only [List.mem_cons]
      tauto

/-- When nothing was deleted, changed or comparison-staged, `updateFinish`
returns the loop state's table and indices unchanged with verdict `false`. -/
theorem updateFinish_no_change (ub : String) (prev : List String) (st : LoopState)
    (hseen : ∀ p ∈ prev, p ∈ st.seen)
    (hch : st.changed = false) (hrc : st.reftest_changes = false) :
    updateFinish ub prev st = (⟨ub, st.path_hash, st.data⟩, false) := by
  have hdel : prev.filter (fun p => !(decide (p ∈ st.seen))) = [] := by
    rw [List.filter_eq_nil_iff]
    intro p hp
    simp [hseen p hp]
  simp only [updateFinish, hdel, List.foldl_nil, List.isEmpty_nil, Bool.not_true,
    Bool.or_false, hch, hrc]
  simp

/-- **C2**: for a store satisfying the FileRecord invariant (every indexed
path has a record, and comparison-kind records are backed by their index),
running Update over the stream that lists exactly the FileRecord paths, each
with `recompute=false`, returns `changed=false` and leaves the serialized
document identical. -/
theorem update_unchanged_stream_idempotent (S : Manifest)
    (hPrev : ∀ q ∈ Manifest.prevFiles S, q ∈ pmKeys S.path_hash)
    (hRef : ∀ q hs t, pmFind? S.path_hash q = some (hs, t) → t ∈ reftest_types →
       (pmFind? (S.data t) q).isSome = true) :
    ∃ S2, Manifest.update S ((pmKeys S.path_hash).map Obs.old) = some (S2, false) ∧
      Manifest.to_json S2 = Manifest.to_json S := by
  have hrec : ∀ p ∈ pmKeys S.path_hash, ∃ hs t,
      pmFind? (initLoop S).path_hash p = some (hs, t) ∧
      (t ∈ reftest_types → (pmFind? ((initLoop S).data t) p).isSome = true) := by
    intro p hp
    obtain ⟨⟨hs, t⟩, hf⟩ := Option.isSome_iff_exists.mp (pmFind?_mem_keys S.path_hash p hp)
    exact ⟨hs, t, hf, fun ht => hRef p hs t hf ht⟩
  obtain ⟨st', hloop, hph, hdata, hch, hrc, hseen⟩ :=
    updateLoop_old_only (pmKeys S.path_hash) (initLoop S) hrec
  refine ⟨S, ?_, rfl⟩
  have hfin := updateFinish_no_change S.url_base (Manifest.prevFiles S) st'
    (fun p hp => (hseen p).mpr (Or.inr (hPrev p hp))) hch hrc
  have hS : (⟨S.url_base, st'.path_hash, st'.data⟩ : Manifest) = S := by
    rw [hph, hdata]
    exact rfl
  simp only [Manifest.update, hloop, hfin, hS]

/-- A one-record store for the idempotence witness. -/
def idemStore : Manifest :=
  ⟨"/", [("x", ("h1", .testharness))],
   mdSet (fun _ => []) .testharness [("x", [⟨"x", "/x", .testharness, []⟩])]⟩

/-- Witness for `update_unchanged_stream_idempotent` at a concrete one-file
store. -/
theorem update_unchanged_stream_idempotent_witness :
    ∃ S2, Manifest.update idemStore ((pmKeys idemStore.path_hash).map Obs.old)
        = some (S2, false) ∧
      Manifest.to_json S2 = Manifest.to_json idemStore := by
  apply update_unchanged_stream_idempotent
  · decide
  · intro q hs t hf ht
    by_cases hq : "x" = q
    · rw [show pmFind? idemStore.path_hash q
          = some ("h1", ItemType.testharness) from by simp [idemStore, pmFind?, hq]] at hf
      obtain ⟨rfl, rfl⟩ : hs = "h1" ∧ t = ItemType.testharness := by
        have h2 := Option.some.inj hf
        exact ⟨congrArg Prod.fst h2.symm, congrArg Prod.snd h2.symm⟩
      exact absurd ht (by decide)
    · rw [show pmFind? idemStore.path_hash q = none from by simp [idemStore, pmFind?, hq]] at hf
      cases hf

/-! ## Frame reasoning for the update loop (shared by C3 and C4) -/

/-- Contract of one observation (spec §6: the extraction collaborator returns
items for the observed file): every extracted item carries the observed path. -/
def obsWF : Obs → Prop
  | .old _ => True
  | .new sf => ∀ i ∈ sf.manifest_items.2, i.path = sf.rel_path

/-- Store coherence: every stored item carries the path it is indexed under. -/
def ItemsAt (d : MData) : Prop :=
  ∀ t q l, pmFind? (d t) q = some l → ∀ i ∈ l, i.path = q

theorem mdSet_find (d : MData) (t : ItemType) (v : PathMap (List ManifestItem))
    (t' : ItemType) (q : String) :
    pmFind? ((mdSet d t v) t') q = if t' = t then pmFind? v q else pmFind? (d t') q := by
  unfold mdSet
  by_cases h : t' = t <;> simp [h]

theorem pmFind?_erase_inv {α : Type} (m : PathMap α) (k q : String) (v : α)
    (h : pmFind? (pmErase m k) q = some v) : pmFind? m q = some v := by
  by_cases hk : k = q
  · subst hk; rw [pmFind?_erase_self] at h; cases h
  · rwa [pmFind?_erase_other _ _ _ hk] at h

theorem ItemsAt_set (d : MData) (t : ItemType) (rel : String) (items : List ManifestItem)
    (hia : ItemsAt d) (hit : ∀ i ∈ items, i.path = rel) :
    ItemsAt (mdSet d t (pmSet (d t) rel items)) := by
  intro t' q l hfl j hj
  rw [mdSet_find] at hfl
  by_cases ht : t' = t
  · rw [if_pos ht] at hfl
    by_cases hq : rel = q
    · subst hq
      rw [pmFind?_set_self] at hfl
      obtain rfl := Option.some.inj hfl
      exact hit j hj
    · rw [pmFind?_set_other _ _ _ _ hq] at hfl
      exact hia t q l hfl j hj
  · rw [if_neg ht] at hfl
    exact hia t' q l hfl j hj

theorem ItemsAt_erase (d : MData) (t : ItemType) (rel : String) (hia : ItemsAt d) :
    ItemsAt (mdSet d t (pmErase (d t) rel)) := by
  intro t' q l hfl j hj
  rw [mdSet_find] at hfl
  by_cases ht : t' = t
  · rw [if_pos ht] at hfl
    exact hia t q l (pmFind?_erase_inv _ _ _ _ hfl) j hj
  · rw [if_neg ht] at hfl
    exact hia t' q l hfl j hj

theorem data_frame_erase (d : MData) (t : ItemType) (rel p : String) (h : rel ≠ p) :
    ∀ t', pmFind? ((mdSet d t (pmErase (d t) rel)) t') p = pmFind? (d t') p := by
  intro t'
  rw [mdSet_find]
  by_cases ht : t' = t
  · rw [if_pos ht, pmFind?_erase_other _ _ _ h, ht]
  · rw [if_neg ht]

theorem data_frame_set (d : MData) (t : ItemType) (rel : String)
    (items : List ManifestItem) (p : String) (h : rel ≠ p) :
    ∀ t', pmFind? ((mdSet d t (pmSet (d t) rel items)) t') p = pmFind? (d t') p := by
  intro t'
  rw [mdSet_find]
  by_cases ht : t' = t
  · rw [if_pos ht, pmFind?_set_other _ _ _ _ h, ht]
  · rw [if_neg ht]

/-- Everything one loop iteration is allowed to do to state not belonging to
the observed path: nothing. -/
structure FrameAt (p : String) (st st' : LoopState) : Prop where
  data_eq : ∀ t, pmFind? (st'.data t) p = pmFind? (st.data t) p
  ph_eq : pmFind? st'.path_hash p = pmFind? st.path_hash p
  seen_iff : p ∈ st'.seen ↔ p ∈ st.seen
  seen_mono : ∀ x ∈ st.seen, x ∈ st'.seen
  staged_char : ∀ e ∈ st'.reftest_nodes, e ∈ st.reftest_nodes ∨ e.1.path ≠ p
  staged_mono : ∀ e ∈ st.reftest_nodes, e ∈ st'.reftest_nodes
  rc_mono : st.reftest_changes = true → st'.reftest_changes = true
  items_at : ItemsAt st'.data

theorem frameAt_refl (p : String) (st : LoopState) (hia : ItemsAt st.data) :
    FrameAt p st st :=
  ⟨fun _ => rfl, rfl, Iff.rfl, fun _ h => h, fun _ he => Or.inl he,
   fun _ h => h, fun h => h, hia⟩

theorem FrameAt.comp (p : String) (st1 st2 st3 : LoopState)
    (h1 : FrameAt p st1 st2) (h2 : FrameAt p st2 st3) : FrameAt p st1 st3 := by
  refine ⟨?_, ?_, ?_, ?_, ?_, ?_, ?_, h2.items_at⟩
  · intro t; rw [h2.data_eq t, h1.data_eq t]
  · rw [h2.ph_eq, h1.ph_eq]
  · rw [h2.seen_iff, h1.seen_iff]
  · intro x hx; exact h2.seen_mono x (h1.seen_mono x hx)
  · intro e he
    rcases h2.staged_char e he with he' | hp
    · exact h1.staged_char e he'
    · exact Or.inr hp
  · intro e he; exact h2.staged_mono e (h1.staged_mono e he)
  · intro h; exact h2.rc_mono (h1.rc_mono h)

theorem frame_seen (s : List String) (rel p : String) (h : rel ≠ p) :
    p ∈ setAdd s rel ↔ p ∈ s := by
  rw [setAdd_mem]
  constructor
  · rintro (hp | hp)
    · exact absurd hp.symm h
    · exact hp
  · exact Or.inr

theorem staged_ext_char (old ext : List (ManifestItem × String)) (p : String)
    (hext : ∀ e ∈ ext, e.1.path ≠ p) :
    ∀ e ∈ old ++ ext, e ∈ old ∨ e.1.path ≠ p := by
  intro e he
  rcases List.mem_append.mp he with h | h
  · exact Or.inl h
  · exact Or.inr (hext e h)

theorem mapped_staged_ne (items : List ManifestItem) (hs rel p : String)
    (hne : rel ≠ p) (hit : ∀ i ∈ items, i.path = rel) :
    ∀ e ∈ items.map (fun i => (i, hs)), e.1.path ≠ p := by
  intro e he
  obtain ⟨i, hi, rfl⟩ := List.mem_map.mp he
  simpa [hit i hi] using hne

/-- A successful loop iteration for an observation of a different path leaves
every `p`-keyed piece of state intact, adds to `seen` and the staged list only
at that other path, preserves staged state and the recompute flag, and keeps
store coherence. -/
theorem updateStep_frame (st st' : LoopState) (o : Obs) (p : String)
    (hne : obsPath o ≠ p) (hwf : obsWF o) (hia : ItemsAt st.data)
    (hstep : updateStep st o = some st') : FrameAt p st st' := by
  cases o with
  | old rel =>
    have hrel : rel ≠ p := hne
    simp only [updateStep] at hstep
    cases hf : pmFind? st.path_hash rel with
    | none =>
      simp only [hf] at hstep
      exact Option.noConfusion hstep
    | some v =>
      obtain ⟨hs, t⟩ := v
      simp only [hf] at hstep
      by_cases ht : t ∈ reftest_types
      · rw [if_pos ht] at hstep
        cases hidx : pmFind? (st.data t) rel with
        | none =>
          simp only [hidx] at hstep
          exact Option.noConfusion hstep
        | some items =>
          simp only [hidx] at hstep
          obtain rfl := Option.some.inj hstep
          exact ⟨fun _ => rfl, rfl, frame_seen _ _ _ hrel,
            fun x hx => (setAdd_mem _ _ _).mpr (Or.inr hx),
            staged_ext_char _ _ _
              (mapped_staged_ne items hs rel p hrel (hia t rel items hidx)),
            fun e he => List.mem_append_left _ he, fun h => h, hia⟩
      · rw [if_neg ht] at hstep
        obtain rfl := Option.some.inj hstep
        exact ⟨fun _ => rfl, rfl, frame_seen _ _ _ hrel,
          fun x hx => (setAdd_mem _ _ _).mpr (Or.inr hx),
          fun e he => Or.inl he, fun e he => he, fun h => h, hia⟩
  | new sf =>
    have hrel : sf.rel_path ≠ p := hne
    have hwf' : ∀ i ∈ sf.manifest_items.2, i.path = sf.rel_path := hwf
    simp only [updateStep] at hstep
    cases hf : pmFind? st.path_hash sf.rel_path with
    | some v =>
      obtain ⟨oh, ot⟩ := v
      simp only [hf] at hstep
      by_cases hh : oh ≠ sf.hash
      · rw [if_pos hh] at hstep
        by_cases hnt : sf.manifest_items.1 ≠ ot
        · rw [if_pos hnt] at hstep
          cases hidx : pmFind? (st.data ot) sf.rel_path with
          | none =>
            simp only [hidx] at hstep
            exact Option.noConfusion hstep
          | some w =>
            simp only [hidx] at hstep
            by_cases hrt : sf.manifest_items.1 ∈ reftest_types
            · rw [if_pos hrt] at hstep
              obtain rfl := Option.some.inj hstep
              exact ⟨data_frame_erase _ _ _ _ hrel,
                pmFind?_set_other _ _ _ _ hrel, frame_seen _ _ _ hrel,
                fun x hx => (setAdd_mem _ _ _).mpr (Or.inr hx),
                staged_ext_char _ _ _ (mapped_staged_ne _ _ _ _ hrel hwf'),
                fun e he => List.mem_append_left _ he, fun _ => rfl,
                ItemsAt_erase _ _ _ hia⟩
            · rw [if_neg hrt] at hstep
              obtain rfl := Option.some.inj hstep
              refine ⟨?_, pmFind?_set_other _ _ _ _ hrel, frame_seen _ _ _ hrel,
                fun x hx => (setAdd_mem _ _ _).mpr (Or.inr hx),
                fun e he => Or.inl he, fun e he => he,
                fun h => by simp [h],
                ItemsAt_set _ _ _ _ (ItemsAt_erase _ _ _ hia) hwf'⟩
              intro t
              rw [data_frame_set _ _ _ _ _ hrel t, data_frame_erase _ _ _ _ hrel t]
        · rw [if_neg hnt] at hstep
          dsimp only at hstep
          by_cases hrt : sf.manifest_items.1 ∈ reftest_types
          · rw [if_pos hrt] at hstep
            obtain rfl := Option.some.inj hstep
            exact ⟨fun _ => rfl, pmFind?_set_other _ _ _ _ hrel, frame_seen _ _ _ hrel,
              fun x hx => (setAdd_mem _ _ _).mpr (Or.inr hx),
              staged_ext_char _ _ _ (mapped_staged_ne _ _ _ _ hrel hwf'),
              fun e he => List.mem_append_left _ he, fun _ => rfl, hia⟩
          · rw [if_neg hrt] at hstep
            obtain rfl := Option.some.inj hstep
            exact ⟨data_frame_set _ _ _ _ _ hrel,
              pmFind?_set_other _ _ _ _ hrel, frame_seen _ _ _ hrel,
              fun x hx => (setAdd_mem _ _ _).mpr (Or.inr hx),
              fun e he => Or.inl he, fun e he => he, fun h => h,
              ItemsAt_set _ _ _ _ hia hwf'⟩
      · rw [if_neg hh] at hstep
        by_cases hrt : ot ∈ reftest_types
        · rw [if_pos hrt] at hstep
          cases hidx : pmFind? (st.data ot) sf.rel_path with
          | none =>
            simp only [hidx] at hstep
            exact Option.noConfusion hstep
          | some items =>
            simp only [hidx] at hstep
            obtain rfl := Option.some.inj hstep
            exact ⟨fun _ => rfl, rfl, frame_seen _ _ _ hrel,
              fun x hx => (setAdd_mem _ _ _).mpr (Or.inr hx),
              staged_ext_char _ _ _
                (mapped_staged_ne items sf.hash sf.rel_path p hrel
                  (hia ot sf.rel_path items hidx)),
              fun e he => List.mem_append_left _ he, fun h => h, hia⟩
        · rw [if_neg hrt] at hstep
          obtain rfl := Option.some.inj hstep
          exact ⟨fun _ => rfl, rfl, frame_seen _ _ _ hrel,
            fun x hx => (setAdd_mem _ _ _).mpr (Or.inr hx),
            fun e he => Or.inl he, fun e he => he, fun h => h, hia⟩
    | none =>
      simp only [hf] at hstep
      by_cases hrt : sf.manifest_items.1 ∈ reftest_types
      · rw [if_pos hrt] at hstep
        obtain rfl := Option.some.inj hstep
        exact ⟨fun _ => rfl, pmFind?_set_other _ _ _ _ hrel, frame_seen _ _ _ hrel,
          fun x hx => (setAdd_mem _ _ _).mpr (Or.inr hx),
          staged_ext_char _ _ _ (mapped_staged_ne _ _ _ _ hrel hwf'),
          fun e he => List.mem_append_left _ he, fun _ => rfl, hia⟩
      · rw [if_neg hrt] at hstep
        obtain rfl := Option.some.inj hstep
        exact ⟨data_frame_set _ _ _ _ _ hrel,
          pmFind?_set_other _ _ _ _ hrel, frame_seen _ _ _ hrel,
          fun x hx => (setAdd_mem _ _ _).mpr (Or.inr hx),
          fun e he => Or.inl he, fun e he => he, fun h => h,
          ItemsAt_set _ _ _ _ hia hwf'⟩

theorem updateLoop_append (l1 l2 : List Obs) (st : LoopState) :
    updateLoop st (l1 ++ l2) =
      match updateLoop st l1 with
      | none => none
      | some st' => updateLoop st' l2 := by
  induction l1 generalizing st with
  | nil => rfl
  | cons o r ih =>
    simp only [List.cons_append, updateLoop]
    cases updateStep st o with
    | none => rfl
    | some st1 => exact ih st1

/-- Frame property of a whole loop run over a stream that never mentions `p`. -/
theorem updateLoop_frame (l : List Obs) (st st' : LoopState) (p : String)
    (hobs : ∀ o ∈ l, obsWF o ∧ obsPath o ≠ p) (hia : ItemsAt st.data)
    (hloop : updateLoop st l = some st') : FrameAt p st st' := by
  induction l generalizing st with
  | nil =>
    obtain rfl := Option.some.inj hloop
    exact frameAt_refl p st hia
  | cons o r ih =>
    simp only [updateLoop] at hloop
    cases hstep : updateStep st o with
    | none =>
      simp only [hstep] at hloop
      exact Option.noConfusion hloop
    | some st1 =>
      simp only [hstep] at hloop
      have hfr := updateStep_frame st st1 o p (hobs o (by simp)).2 (hobs o (by simp)).1
        hia hstep
      exact FrameAt.comp p st st1 st' hfr
        (ih st1 (fun o' ho' => hobs o' (by simp [ho'])) hfr.items_at hloop)

/-! ## The deletion phase and the recompute stage (shared by C3 and C4) -/

theorem delStep_keeps (st : LoopState) (q : String) :
    (delStep st q).reftest_nodes = st.reftest_nodes ∧
    (delStep st q).seen = st.seen ∧
    (delStep st q).changed = st.changed ∧
    (st.reftest_changes = true → (delStep st q).reftest_changes = true) := by
  cases hf : pmFind? st.path_hash q with
  | some v =>
    obtain ⟨hs, k⟩ := v
    refine ⟨by simp [delStep, hf], by simp [delStep, hf], by simp [delStep, hf],
      fun h => by simp [delStep, hf, h]⟩
  | none =>
    refine ⟨by simp [delStep, hf], by simp [delStep, hf], by simp [delStep, hf],
      fun h => by simp [delStep, hf, h]⟩

theorem delStep_frame (st : LoopState) (q p : String) (hne : q ≠ p) :
    pmFind? (delStep st q).path_hash p = pmFind? st.path_hash p ∧
    ∀ t, pmFind? ((delStep st q).data t) p = pmFind? (st.data t) p := by
  cases hf : pmFind? st.path_hash q with
  | some v =>
    obtain ⟨hs, k⟩ := v
    constructor
    · simp only [delStep, hf]
      exact pmFind?_erase_other _ _ _ hne
    · intro t
      simp only [delStep, hf]
      exact data_frame_erase _ _ _ _ hne t
  | none =>
    constructor
    · simp only [delStep, hf]
    · intro t
      simp only [delStep, hf]
      exact pmFind?_erase_other _ _ _ hne

theorem delStep_self (st : LoopState) (p : String) :
    pmFind? (delStep st p).path_hash p = none ∧
    ∀ t, pmFind? ((delStep st p).data t) p = none ∨
      (∃ hs k, pmFind? st.path_hash p = some (hs, k) ∧ t ≠ k ∧
        pmFind? ((delStep st p).data t) p = pmFind? (st.data t) p) := by
  cases hf : pmFind? st.path_hash p with
  | some v =>
    obtain ⟨hs, k⟩ := v
    constructor
    · simp only [delStep, hf]
      exact pmFind?_erase_self _ _
    · intro t
      by_cases ht : t = k
      · refine Or.inl ?_
        simp only [delStep, hf, mdSet_find, ht, if_true]
        exact pmFind?_erase_self _ _
      · refine Or.inr ⟨hs, k, rfl, ht, ?_⟩
        simp only [delStep, hf, mdSet_find, ht, if_false]
  | none =>
    constructor
    · simp only [delStep, hf]
    · intro t
      refine Or.inl ?_
      simp only [delStep, hf]
      exact pmFind?_erase_self _ _

theorem delStep_ph_none (st : LoopState) (q p : String)
    (h : pmFind? st.path_hash p = none) :
    pmFind? (delStep st q).path_hash p = none := by
  by_cases hq : q = p
  · subst hq; exact (delStep_self st q).1
  · rw [(delStep_frame st q p hq).1]; exact h

theorem delStep_data_none (st : LoopState) (q p : String) (t : ItemType)
    (h : pmFind? (st.data t) p = none) :
    pmFind? ((delStep st q).data t) p = none := by
  by_cases hq : q = p
  · subst hq
    rcases (delStep_self st q).2 t with h' | ⟨hs, k, _, _, heq⟩
    · exact h'
    · rw [heq]; exact h
  · rw [(delStep_frame st q p hq).2 t]; exact h

theorem delStep_data_none_or_pres (st : LoopState) (q p : String) (t : ItemType) :
    pmFind? ((delStep st q).data t) p = none ∨
    pmFind? ((delStep st q).data t) p = pmFind? (st.data t) p := by
  by_cases hq : q = p
  · subst hq
    rcases (delStep_self st q).2 t with h | ⟨_, _, _, _, heq⟩
    · exact Or.inl h
    · exact Or.inr heq
  · exact Or.inr ((delStep_frame st q p hq).2 t)

theorem delFold_keeps (L : List String) (st : LoopState) :
    (L.foldl delStep st).reftest_nodes = st.reftest_nodes ∧
    (L.foldl delStep st).seen = st.seen ∧
    (L.foldl delStep st).changed = st.changed ∧
    (st.reftest_changes = true → (L.foldl delStep st).reftest_changes = true) := by
  induction L generalizing st with
  | nil => exact ⟨rfl, rfl, rfl, fun h => h⟩
  | cons q L' ih =>
    obtain ⟨h1, h2, h3, h4⟩ := delStep_keeps st q
    obtain ⟨g1, g2, g3, g4⟩ := ih (delStep st q)
    exact ⟨by rw [List.foldl_cons, g1, h1], by rw [List.foldl_cons, g2, h2],
      by rw [List.foldl_cons, g3, h3], fun h => by rw [List.foldl_cons]; exact g4 (h4 h)⟩

theorem delFold_ph_none (L : List String) (st : LoopState) (p : String)
    (h : pmFind? st.path_hash p = none) :
    pmFind? ((L.foldl delStep st).path_hash) p = none := by
  induction L generalizing st with
  | nil => exact h
  | cons q L' ih => exact ih (delStep st q) (delStep_ph_none st q p h)

theorem delFold_data_none (L : List String) (st : LoopState) (p : String) (t : ItemType)
    (h : pmFind? (st.data t) p = none) :
    pmFind? ((L.foldl delStep st).data t) p = none := by
  induction L generalizing st with
  | nil => exact h
  | cons q L' ih => exact ih (delStep st q) (delStep_data_none st q p t h)

theorem delFold_data_none_or_pres (L : List String) (st : LoopState) (p : String)
    (t : ItemType) :
    pmFind? ((L.foldl delStep st).data t) p = none ∨
    pmFind? ((L.foldl delStep st).data t) p = pmFind? (st.data t) p := by
  induction L generalizing st with
  | nil => exact Or.inr rfl
  | cons q L' ih =>
    rcases ih (delStep st q) with h | h
    · exact Or.inl (by rw [List.foldl_cons]; exact h)
    · rcases delStep_data_none_or_pres st q p t with h' | h'
      · exact Or.inl (by rw [List.foldl_cons, h]; exact h')
      · exact Or.inr (by rw [List.foldl_cons, h, h'])

theorem delFold_frame (L : List String) (st : LoopState) (p : String)
    (h : ∀ q ∈ L, q ≠ p) :
    pmFind? ((L.foldl delStep st).path_hash) p = pmFind? st.path_hash p ∧
    ∀ t, pmFind? ((L.foldl delStep st).data t) p = pmFind? (st.data t) p := by
  induction L generalizing st with
  | nil => exact ⟨rfl, fun _ => rfl⟩
  | cons q L' ih =>
    have hq : q ≠ p := h q (by simp)
    obtain ⟨f1, f2⟩ := delStep_frame st q p hq
    obtain ⟨g1, g2⟩ := ih (delStep st q) (fun q' hq' => h q' (by simp [hq']))
    exact ⟨by rw [List.foldl_cons, g1, f1],
      fun t => by rw [List.foldl_cons, g2 t, f2 t]⟩

theorem delFold_at (L : List String) (st : LoopState) (p : String) (hp : p ∈ L) :
    pmFind? ((L.foldl delStep st).path_hash) p = none ∧
    ∀ t, pmFind? ((L.foldl delStep st).data t) p = none ∨
      (∃ hs k, pmFind? st.path_hash p = some (hs, k) ∧ t ≠ k ∧
        pmFind? ((L.foldl delStep st).data t) p = pmFind? (st.data t) p) := by
  induction L generalizing st with
  | nil => simp at hp
  | cons q L' ih =>
    by_cases hq : q = p
    · subst hq
      obtain ⟨h1, h2⟩ := delStep_self st q
      constructor
      · rw [List.foldl_cons]
        exact delFold_ph_none L' (delStep st q) q h1
      · intro t
        rcases h2 t with hnone | ⟨hs, k, hfk, htk, hpres⟩
        · exact Or.inl (by rw [List.foldl_cons]; exact delFold_data_none L' _ q t hnone)
        · rcases delFold_data_none_or_pres L' (delStep st q) q t with h3 | h3
          · exact Or.inl (by rw [List.foldl_cons]; exact h3)
          · exact Or.inr ⟨hs, k, hfk, htk, by rw [List.foldl_cons, h3, hpres]⟩
    · have hp' : p ∈ L' := by
        rcases List.mem_cons.mp hp with h | h
        · exact absurd h.symm hq
        · exact h
      obtain ⟨f1, f2⟩ := delStep_frame st q p hq
      obtain ⟨g1, g2⟩ := ih (delStep st q) hp'
      constructor
      · rw [List.foldl_cons]; exact g1
      · intro t
        rcases g2 t with h3 | ⟨hs, k, hfk, htk, hpres⟩
        · exact Or.inl (by rw [List.foldl_cons]; exact h3)
        · refine Or.inr ⟨hs, k, ?_, htk, ?_⟩
          · rw [← f1]; exact hfk
          · rw [List.foldl_cons, hpres, f2 t]

theorem crConv_path1 (it : ManifestItem) :
    (if it.item_type = ItemType.reftest then toRefTestNode it else it).path = it.path := by
  unfold toRefTestNode; split <;> rfl

theorem crConv_path2 (it : ManifestItem) :
    (if it.item_type = ItemType.reftest_node then toRefTest it else it).path = it.path := by
  unfold toRefTest; split <;> rfl

theorem addToBucket_frame (m : PathMap (List ManifestItem)) (p : String)
    (x : ManifestItem) (q : String) (h : p ≠ q) :
    pmFind? (addToBucket m p x) q = pmFind? m q := by
  unfold addToBucket
  by_cases hx : x ∈ (pmFind? m p).getD []
  · rw [if_pos hx]
  · rw [if_neg hx, pmFind?_set_other _ _ _ _ h]

theorem crStep_buckets_frame (inbound : List String) (acc : CRAcc)
    (e : ManifestItem × String) (q : String) (h : e.1.path ≠ q) :
    pmFind? (crStep inbound acc e).reftests q = pmFind? acc.reftests q ∧
    pmFind? (crStep inbound acc e).references q = pmFind? acc.references q := by
  obtain ⟨it, hs⟩ := e
  unfold crStep
  by_cases hc : it.url ∈ inbound
  · constructor
    · simp only [hc, if_true]
    · simp only [hc, if_true]
      exact addToBucket_frame _ _ _ _ (by rw [crConv_path1]; exact h)
  · constructor
    · simp only [hc, if_false]
      exact addToBucket_frame _ _ _ _ (by rw [crConv_path2]; exact h)
    · simp only [hc, if_false]

theorem crFold_buckets_frame (inbound : List String) (l : List (ManifestItem × String))
    (acc : CRAcc) (q : String) (h : ∀ e ∈ l, e.1.path ≠ q) :
    pmFind? ((l.foldl (crStep inbound) acc).reftests) q = pmFind? acc.reftests q ∧
    pmFind? ((l.foldl (crStep inbound) acc).references) q = pmFind? acc.references q := by
  induction l generalizing acc with
  | nil => exact ⟨rfl, rfl⟩
  | cons e r ih =>
    obtain ⟨f1, f2⟩ := crStep_buckets_frame inbound acc e q (h e (by simp))
    obtain ⟨g1, g2⟩ := ih (crStep inbound acc e) (fun e' he' => h e' (by simp [he']))
    exact ⟨by rw [List.foldl_cons, g1, f1], by rw [List.foldl_cons, g2, f2]⟩

theorem crStep_reftests_none (inbound : List String) (acc : CRAcc)
    (e : ManifestItem × String) (p : String)
    (hacc : pmFind? acc.reftests p = none)
    (h : e.1.path = p → e.1.url ∈ inbound) :
    pmFind? (crStep inbound acc e).reftests p = none := by
  obtain ⟨it, hs⟩ := e
  unfold crStep
  by_cases hc : it.url ∈ inbound
  · simp only [hc, if_true]
    exact hacc
  · simp only [hc, if_false]
    by_cases hp : it.path = p
    · exact absurd (h hp) hc
    · rw [addToBucket_frame _ _ _ _ (by rw [crConv_path2]; exact hp)]
      exact hacc

theorem crStep_references_none (inbound : List String) (acc : CRAcc)
    (e : ManifestItem × String) (p : String)
    (hacc : pmFind? acc.references p = none)
    (h : e.1.path = p → e.1.url ∉ inbound) :
    pmFind? (crStep inbound acc e).references p = none := by
  obtain ⟨it, hs⟩ := e
  unfold crStep
  by_cases hc : it.url ∈ inbound
  · simp only [hc, if_true]
    by_cases hp : it.path = p
    · exact absurd hc (h hp)
    · rw [addToBucket_frame _ _ _ _ (by rw [crConv_path1]; exact hp)]
      exact hacc
  · simp only [hc, if_false]
    exact hacc

theorem crFold_reftests_none (inbound : List String) (l : List (ManifestItem × String))
    (acc : CRAcc) (p : String)
    (hacc : pmFind? acc.reftests p = none)
    (h : ∀ e ∈ l, e.1.path = p → e.1.url ∈ inbound) :
    pmFind? ((l.foldl (crStep inbound) acc).reftests) p = none := by
  induction l generalizing acc with
  | nil => exact hacc
  | cons e r ih =>
    exact ih (crStep inbound acc e)
      (crStep_reftests_none inbound acc e p hacc (h e (by simp)))
      (fun e' he' => h e' (by simp [he']))

theorem crFold_references_none (inbound : List String) (l : List (ManifestItem × String))
    (acc : CRAcc) (p : String)
    (hacc : pmFind? acc.references p = none)
    (h : ∀ e ∈ l, e.1.path = p → e.1.url ∉ inbound) :
    pmFind? ((l.foldl (crStep inbound) acc).references) p = none := by
  induction l generalizing acc with
  | nil => exact hacc
  | cons e r ih =>
    exact ih (crStep inbound acc e)
      (crStep_references_none inbound acc e p hacc (h e (by simp)))
      (fun e' he' => h e' (by simp [he']))

theorem pmSet_mem_inv {α : Type} (m : PathMap α) (k : String) (v : α)
    (kv : String × α) (h : kv ∈ pmSet m k v) : kv ∈ m ∨ kv.1 = k := by
  induction m with
  | nil =>
    simp only [pmSet, List.mem_singleton] at h
    exact Or.inr (by rw [h])
  | cons e r ih =>
    obtain ⟨k', v'⟩ := e
    by_cases hk : k' = k
    · simp only [pmSet, hk, if_true] at h
      rcases List.mem_cons.mp h with h | h
      · exact Or.inr (by rw [h])
      · exact Or.inl (List.mem_cons_of_mem _ h)
    · simp only [pmSet, hk, if_false] at h
      rcases List.mem_cons.mp h with h | h
      · exact Or.inl (by rw [h]; simp)
      · rcases ih h with h' | h'
        · exact Or.inl (List.mem_cons_of_mem _ h')
        · exact Or.inr h'

theorem crStep_changed_keys (inbound : List String) (acc : CRAcc)
    (e : ManifestItem × String) (kv : String × (String × ItemType))
    (h : kv ∈ (crStep inbound acc e).changed_hashes) :
    kv ∈ acc.changed_hashes ∨ kv.1 = e.1.path := by
  obtain ⟨it, hs⟩ := e
  unfold crStep at h
  by_cases hc : it.url ∈ inbound
  · simp only [hc, if_true] at h
    by_cases hr : it.item_type = ItemType.reftest
    · rw [if_pos hr] at h
      rcases pmSet_mem_inv _ _ _ _ h with h | h
      · exact Or.inl h
      · exact Or.inr h
    · rw [if_neg hr] at h
      exact Or.inl h
  · simp only [hc, if_false] at h
    by_cases hr : it.item_type = ItemType.reftest_node
    · rw [if_pos hr] at h
      rcases pmSet_mem_inv _ _ _ _ h with h | h
      · exact Or.inl h
      · exact Or.inr h
    · rw [if_neg hr] at h
      exact Or.inl h

theorem crFold_changed_keys (inbound : List String) (l : List (ManifestItem × String))
    (acc : CRAcc) (kv : String × (String × ItemType))
    (h : kv ∈ (l.foldl (crStep inbound) acc).changed_hashes) :
    kv ∈ acc.changed_hashes ∨ ∃ e ∈ l, kv.1 = e.1.path := by
  induction l generalizing acc with
  | nil => exact Or.inl h
  | cons e r ih =>
    rcases ih (crStep inbound acc e) h with h' | ⟨e', he', hp⟩
    · rcases crStep_changed_keys inbound acc e kv h' with h2 | h2
      · exact Or.inl h2
      · exact Or.inr ⟨e, by simp, h2⟩
    · exact Or.inr ⟨e', by simp [he'], hp⟩

/-! ## Claim C4: deletion completeness -/

/-- **C4**: a path that holds items in the prior store (with or without a
FileRecord; a FileRecord, if present, matching the index the items live in)
and is absent from the observation stream is, after a successful Update,
present in no kind's index and absent from the FileRecord table, and the pass
reports `changed=true`. -/
theorem update_deletion_complete (S : Manifest) (tree : List Obs) (p : String)
    (S' : Manifest) (c : Bool)
    (hia : ItemsAt S.data)
    (hobs : ∀ o ∈ tree, obsWF o ∧ obsPath o ≠ p)
    (hprev : p ∈ Manifest.prevFiles S)
    (hrec : ∀ hs k, pmFind? S.path_hash p = some (hs, k) →
        ∀ t, t ≠ k → pmFind? (S.data t) p = none)
    (hupd : Manifest.update S tree = some (S', c)) :
    c = true ∧ pmFind? S'.path_hash p = none ∧ ∀ t, pmFind? (S'.data t) p = none := by
  unfold Manifest.update at hupd
  cases hloop : updateLoop (initLoop S) tree with
  | none => rw [hloop] at hupd; cases hupd
  | some st1 =>
    rw [hloop] at hupd
    have hfin := Option.some.inj hupd
    have hfr := updateLoop_frame tree (initLoop S) st1 p hobs hia hloop
    have hseen : p ∉ st1.seen := by
      intro hpseen
      have h0 := hfr.seen_iff.mp hpseen
      simp [initLoop] at h0
    unfold updateFinish at hfin
    set deleted := (Manifest.prevFiles S).filter (fun q => !(decide (q ∈ st1.seen)))
      with hdel
    have hpdel : p ∈ deleted := by
      rw [hdel]
      exact List.mem_filter.mpr ⟨hprev, by simp [hseen]⟩
    have hche : (st1.changed || !deleted.isEmpty) = true := by
      cases hd : deleted with
      | nil => rw [hd] at hpdel; simp at hpdel
      | cons a as => simp
    set st2 := deleted.foldl delStep st1 with hst2
    obtain ⟨hph2, hdata2⟩ := delFold_at deleted st1 p hpdel
    have hph0 : pmFind? (initLoop S).path_hash p = pmFind? S.path_hash p := rfl
    have hdata0 : ∀ t, pmFind? ((initLoop S).data t) p = pmFind? (S.data t) p :=
      fun _ => rfl
    have hdataN : ∀ t, pmFind? (st2.data t) p = none := by
      intro t
      rcases hdata2 t with h | ⟨hs, k, hfk, htk, hpres⟩
      · rw [← hst2] at h; exact h
      · have hfS : pmFind? S.path_hash p = some (hs, k) := by
          rw [← hph0, ← hfr.ph_eq]; exact hfk
        have hnone := hrec hs k hfS t htk
        rw [← hst2] at hpres
        rw [hpres, hfr.data_eq t, hdata0 t]
        exact hnone
    have hstagedNe : ∀ e ∈ st2.reftest_nodes, e.1.path ≠ p := by
      have hkeep := (delFold_keeps deleted st1).1
      rw [← hst2] at hkeep
      intro e he
      rw [hkeep] at he
      rcases hfr.staged_char e he with h | h
      · simp [initLoop] at h
      · exact h
    rw [← hst2] at hph2
    by_cases hrc : st2.reftest_changes = true
    · rw [if_pos hrc] at hfin
      injection hfin with hS' hc
      subst hS'
      subst hc
      refine ⟨hche, ?_, ?_⟩
      · show pmFind? (pmSetAll st2.path_hash
            (Manifest.compute_reftests st2.reftest_nodes).changed_hashes) p = none
        rw [pmSetAll_frame]
        · exact hph2
        · intro kv hkv
          unfold Manifest.compute_reftests at hkv
          rcases crFold_changed_keys _ _ _ _ hkv with h | ⟨e, he, hp⟩
          · simp at h
          · rw [hp]; exact hstagedNe e he
      · intro t
        show pmFind? ((mdSet (mdSet st2.data ItemType.reftest
            (Manifest.compute_reftests st2.reftest_nodes).reftests) ItemType.reftest_node
            (Manifest.compute_reftests st2.reftest_nodes).references) t) p = none
        rw [mdSet_find]
        by_cases ht2 : t = ItemType.reftest_node
        · rw [if_pos ht2]
          unfold Manifest.compute_reftests
          exact (crFold_buckets_frame _ _ _ p hstagedNe).2
        · rw [if_neg ht2, mdSet_find]
          by_cases ht1 : t = ItemType.reftest
          · rw [if_pos ht1]
            unfold Manifest.compute_reftests
            exact (crFold_buckets_frame _ _ _ p hstagedNe).1
          · rw [if_neg ht1]
            exact hdataN t
    · rw [if_neg hrc] at hfin
      injection hfin with hS' hc
      subst hS'
      subst hc
      exact ⟨hche, hph2, hdataN⟩

/-- A one-record store whose only path will be absent from the stream. -/
def delStore : Manifest :=
  ⟨"/", [("gone", ("h0", .testharness))],
   mdSet (fun _ => []) .testharness [("gone", [⟨"gone", "/gone", .testharness, []⟩])]⟩

theorem delStore_items_at : ItemsAt delStore.data := by
  intro t q l hfl j hj
  by_cases ht : t = ItemType.testharness
  · subst ht
    by_cases hq : "gone" = q
    · subst hq
      rw [show pmFind? (delStore.data ItemType.testharness) "gone"
            = some [⟨"gone", "/gone", ItemType.testharness, []⟩] from rfl] at hfl
      obtain rfl := Option.some.inj hfl
      obtain rfl := List.mem_singleton.mp hj
      rfl
    · have h0 : pmFind? (delStore.data ItemType.testharness) q = none := by
        simp [delStore, mdSet, pmFind?, hq]
      rw [h0] at hfl
      cases hfl
  · have h0 : pmFind? (delStore.data t) q = none := by
      simp [delStore, mdSet, ht]
    rw [h0] at hfl
    cases hfl

/-- Witness for `update_deletion_complete`: the one-record store reconciled
against an empty stream deletes its path everywhere. -/
theorem update_deletion_complete_witness :
    ((Manifest.update delStore []).getD (delStore, false)).2 = true ∧
    pmFind? ((Manifest.update delStore []).getD (delStore, false)).1.path_hash "gone"
      = none ∧
    ∀ t, pmFind? (((Manifest.update delStore []).getD (delStore, false)).1.data t) "gone"
      = none := by
  refine update_deletion_complete delStore [] "gone"
    ((Manifest.update delStore []).getD (delStore, false)).1
    ((Manifest.update delStore []).getD (delStore, false)).2
    delStore_items_at (by simp) (by decide) ?_ rfl
  intro hs k hf t htk
  have h2 := (hf.symm.trans
    (show pmFind? delStore.path_hash "gone" = some ("h0", ItemType.testharness) from rfl))
  injection h2 with h3
  obtain ⟨rfl, rfl⟩ : hs = "h0" ∧ k = ItemType.testharness := by
    have h4 := congrArg Prod.fst h3
    have h5 := congrArg Prod.snd h3
    exact ⟨h4, h5⟩
  cases t <;> first | exact absurd rfl htk | rfl

/-! ## Claim C3: kind-change safety -/

theorem convertByInbound_path (inbound : List String) (it : ManifestItem) :
    (convertByInbound inbound it).path = it.path := by
  unfold convertByInbound
  by_cases hc : it.url ∈ inbound
  · rw [if_pos hc]; exact crConv_path1 it
  · rw [if_neg hc]; exact crConv_path2 it

theorem bucketHas_pmMem (m : PathMap (List ManifestItem)) (x : ManifestItem)
    (h : bucketHas m x = true) : pmMem m x.path = true := by
  rw [bucketHas_iff] at h
  obtain ⟨l, hf, _⟩ := h
  simp [pmMem, hf]

/-- The loop iteration for the kind-changing observation itself: the path is
deleted from the testharness index, the extracted item is staged, the graph
recompute is flagged and the FileRecord is rewritten to the new kind. -/
theorem updateStep_kind_change (st : LoopState) (p h₀ h : String) (i : ManifestItem)
    (l₀ : List ManifestItem)
    (hf : pmFind? st.path_hash p = some (h₀, .testharness))
    (hidx : pmFind? (st.data .testharness) p = some l₀)
    (hne : h₀ ≠ h) :
    updateStep st (Obs.new ⟨p, h, (.reftest, [i])⟩) = some
      { st with
        seen := setAdd st.seen p,
        reftest_nodes := st.reftest_nodes ++ [(i, h)],
        reftest_changes := true,
        data := mdSet st.data .testharness (pmErase (st.data .testharness) p),
        path_hash := pmSet st.path_hash p (h, ItemType.reftest),
        changed := true } := by
  simp only [updateStep, hf, hidx]
  rw [if_pos hne,
    if_pos (show ItemType.reftest ≠ ItemType.testharness from by decide)]
  simp only [hidx]
  rw [if_pos (show ItemType.reftest ∈ reftest_types from by decide)]
  rfl

/-- **C3** (amended): for a store recording `p` as `testharness` (with its
items in the testharness index), an Update pass whose stream mentions `p` in
exactly one observation — `recompute=true`, changed hash, extraction yielding
kind `reftest` with exactly one item at `p` — leaves `p` absent from the
testharness index and present in exactly one of the reftest and reftest_node
indices. -/
theorem update_kind_change (S : Manifest) (pre post : List Obs) (p h₀ h : String)
    (i : ManifestItem) (S' : Manifest) (c : Bool)
    (hf : pmFind? S.path_hash p = some (h₀, .testharness))
    (hidx : (pmFind? (S.data .testharness) p).isSome = true)
    (hne : h₀ ≠ h)
    (hip : i.path = p)
    (hia : ItemsAt S.data)
    (hobs : ∀ o ∈ pre ++ post, obsWF o ∧ obsPath o ≠ p)
    (hupd : Manifest.update S (pre ++ Obs.new ⟨p, h, (.reftest, [i])⟩ :: post)
      = some (S', c)) :
    pmMem (S'.data .testharness) p = false ∧
    ((pmMem (S'.data .reftest) p = true ∧ pmMem (S'.data .reftest_node) p = false) ∨
     (pmMem (S'.data .reftest) p = false ∧ pmMem (S'.data .reftest_node) p = true)) := by
  unfold Manifest.update at hupd
  rw [updateLoop_append] at hupd
  cases hloop1 : updateLoop (initLoop S) pre with
  | none => rw [hloop1] at hupd; cases hupd
  | some st1 =>
    rw [hloop1] at hupd
    have hobs_pre : ∀ o ∈ pre, obsWF o ∧ obsPath o ≠ p :=
      fun o ho => hobs o (by simp [ho])
    have hfr1 := updateLoop_frame pre (initLoop S) st1 p hobs_pre hia hloop1
    have hf1 : pmFind? st1.path_hash p = some (h₀, .testharness) := by
      rw [hfr1.ph_eq]; exact hf
    obtain ⟨l₀, hidx1⟩ : ∃ l₀, pmFind? (st1.data .testharness) p = some l₀ := by
      rw [hfr1.data_eq]
      exact Option.isSome_iff_exists.mp hidx
    have hstep := updateStep_kind_change st1 p h₀ h i l₀ hf1 hidx1 hne
    simp only [updateLoop, hstep] at hupd
    set st2 : LoopState := { st1 with
      seen := setAdd st1.seen p,
      reftest_nodes := st1.reftest_nodes ++ [(i, h)],
      reftest_changes := true,
      data := mdSet st1.data .testharness (pmErase (st1.data .testharness) p),
      path_hash := pmSet st1.path_hash p (h, ItemType.reftest),
      changed := true } with hst2
    cases hloop2 : updateLoop st2 post with
    | none => rw [hloop2] at hupd; cases hupd
    | some st3 =>
      rw [hloop2] at hupd
      have hfin := Option.some.inj hupd
      have hobs_post : ∀ o ∈ post, obsWF o ∧ obsPath o ≠ p :=
        fun o ho => hobs o (by simp [ho])
      have hia2 : ItemsAt st2.data := by
        rw [hst2]
        exact ItemsAt_erase _ _ _ hfr1.items_at
      have hfr3 := updateLoop_frame post st2 st3 p hobs_post hia2 hloop2
      have hph3 : pmFind? st3.path_hash p = some (h, ItemType.reftest) := by
        rw [hfr3.ph_eq, hst2]
        exact pmFind?_set_self _ _ _
      have hth3 : pmFind? (st3.data .testharness) p = none := by
        rw [hfr3.data_eq, hst2]
        show pmFind? ((mdSet st1.data .testharness
          (pmErase (st1.data .testharness) p)) .testharness) p = none
        rw [mdSet_find, if_pos rfl]
        exact pmFind?_erase_self _ _
      have hseen3 : p ∈ st3.seen := by
        apply hfr3.seen_mono
        rw [hst2]
        exact (setAdd_mem _ _ _).mpr (Or.inl rfl)
      have hi3 : (i, h) ∈ st3.reftest_nodes := by
        apply hfr3.staged_mono
        rw [hst2]
        exact List.mem_append_right _ (by simp)
      have hstagedP : ∀ e ∈ st3.reftest_nodes, e.1.path = p → e = (i, h) := by
        intro e he hep
        rcases hfr3.staged_char e he with he2 | hne2
        · rw [hst2] at he2
          rcases List.mem_append.mp he2 with he2 | he2
          · rcases hfr1.staged_char e he2 with he1 | hne1
            · simp [initLoop] at he1
            · exact absurd hep hne1
          · simpa using he2
        · exact absurd hep hne2
      have hrc3 : st3.reftest_changes = true := by
        apply hfr3.rc_mono
        rw [hst2]
      unfold updateFinish at hfin
      set deleted := (Manifest.prevFiles S).filter (fun q => !(decide (q ∈ st3.seen)))
        with hdelset
      have hdelne : ∀ q ∈ deleted, q ≠ p := by
        intro q hq
        rw [hdelset] at hq
        obtain ⟨_, hq2⟩ := List.mem_filter.mp hq
        intro hqp
        rw [hqp] at hq2
        simp [hseen3] at hq2
      set st4 := deleted.foldl delStep st3 with hst4
      obtain ⟨hph4, hdata4⟩ := delFold_frame deleted st3 p hdelne
      obtain ⟨hkeep4, _, _, hrcm4⟩ := delFold_keeps deleted st3
      rw [← hst4] at hph4 hdata4 hkeep4 hrcm4
      have hrc4 : st4.reftest_changes = true := hrcm4 hrc3
      rw [if_pos hrc4] at hfin
      injection hfin with hS' hc
      subst hS'
      have hth4 : pmMem ((mdSet (mdSet st4.data ItemType.reftest
          (Manifest.compute_reftests st4.reftest_nodes).reftests) ItemType.reftest_node
          (Manifest.compute_reftests st4.reftest_nodes).references) .testharness) p
          = false := by
        rw [pmMem, mdSet_find, if_neg (by decide : ItemType.testharness ≠ ItemType.reftest_node),
          mdSet_find, if_neg (by decide : ItemType.testharness ≠ ItemType.reftest),
          hdata4 ItemType.testharness, hth3]
        rfl
      have hstaged4 : ∀ e ∈ st4.reftest_nodes, e.1.path = p → e = (i, h) := by
        rw [hkeep4]; exact hstagedP
      have hi4 : (i, h) ∈ st4.reftest_nodes := by rw [hkeep4]; exact hi3
      refine ⟨hth4, ?_⟩
      by_cases hcit : i.url ∈ hasInboundUrls st4.reftest_nodes
      · refine Or.inr ⟨?_, ?_⟩
        · show pmMem ((mdSet (mdSet st4.data ItemType.reftest
              (Manifest.compute_reftests st4.reftest_nodes).reftests) ItemType.reftest_node
              (Manifest.compute_reftests st4.reftest_nodes).references) .reftest) p = false
          rw [pmMem, mdSet_find,
            if_neg (by decide : ItemType.reftest ≠ ItemType.reftest_node),
            mdSet_find, if_pos rfl]
          unfold Manifest.compute_reftests
          have hnone : pmFind? ((st4.reftest_nodes.foldl
              (crStep (hasInboundUrls st4.reftest_nodes)) ⟨[], [], []⟩).reftests) p
              = none := by
            refine crFold_reftests_none _ _ ⟨[], [], []⟩ p rfl ?_
            intro e he hep
            obtain rfl := hstaged4 e he hep
            exact hcit
          rw [hnone]
          rfl
        · show pmMem ((mdSet (mdSet st4.data ItemType.reftest
              (Manifest.compute_reftests st4.reftest_nodes).reftests) ItemType.reftest_node
              (Manifest.compute_reftests st4.reftest_nodes).references) .reftest_node) p = true
          rw [pmMem, mdSet_find, if_pos rfl]
          have hb := (crFold_mem (hasInboundUrls st4.reftest_nodes) st4.reftest_nodes
            ⟨[], [], []⟩ i h hi4).1 hcit
          have hm := bucketHas_pmMem _ _ hb
          rw [convertByInbound_path, hip] at hm
          unfold Manifest.compute_reftests
          exact hm
      · refine Or.inl ⟨?_, ?_⟩
        · show pmMem ((mdSet (mdSet st4.data ItemType.reftest
              (Manifest.compute_reftests st4.reftest_nodes).reftests) ItemType.reftest_node
              (Manifest.compute_reftests st4.reftest_nodes).references) .reftest) p = true
          rw [pmMem, mdSet_find,
            if_neg (by decide : ItemType.reftest ≠ ItemType.reftest_node),
            mdSet_find, if_pos rfl]
          have hb := (crFold_mem (hasInboundUrls st4.reftest_nodes) st4.reftest_nodes
            ⟨[], [], []⟩ i h hi4).2 hcit
          have hm := bucketHas_pmMem _ _ hb
          rw [convertByInbound_path, hip] at hm
          unfold Manifest.compute_reftests
          exact hm
        · show pmMem ((mdSet (mdSet st4.data ItemType.reftest
              (Manifest.compute_reftests st4.reftest_nodes).reftests) ItemType.reftest_node
              (Manifest.compute_reftests st4.reftest_nodes).references) .reftest_node) p = false
          rw [pmMem, mdSet_find, if_pos rfl]
          unfold Manifest.compute_reftests
          have hnone : pmFind? ((st4.reftest_nodes.foldl
              (crStep (hasInboundUrls st4.reftest_nodes)) ⟨[], [], []⟩).references) p
              = none := by
            refine crFold_references_none _ _ ⟨[], [], []⟩ p rfl ?_
            intro e he hep
            obtain rfl := hstaged4 e he hep
            exact hcit
          rw [hnone]
          rfl

/-- A store recording `"p"` as a testharness file, about to change kind. -/
def kcStore : Manifest :=
  ⟨"/", [("p", ("h0", .testharness))],
   mdSet (fun _ => []) .testharness [("p", [⟨"p", "/p", .testharness, []⟩])]⟩

/-- **C3** (counterexample): when the kind-changing extraction yields two
items for the path — one cited by the other — the pass files the path in
*both* the reftest and the reftest_node index, so the claim's "present in
exactly one of the reftest indices" fails as stated (and an extraction
yielding no items leaves it in neither). -/
theorem update_kind_change_cex :
    pmMem ((((Manifest.update kcStore
        [Obs.new ⟨"p", "h1", (.reftest,
          [⟨"p", "/r1", .reftest, []⟩,
           ⟨"p", "/r2", .reftest, [("/r1", "==")]⟩])⟩]).getD
        (kcStore, false))).1.data .testharness) "p" = false ∧
    pmMem ((((Manifest.update kcStore
        [Obs.new ⟨"p", "h1", (.reftest,
          [⟨"p", "/r1", .reftest, []⟩,
           ⟨"p", "/r2", .reftest, [("/r1", "==")]⟩])⟩]).getD
        (kcStore, false))).1.data .reftest) "p" = true ∧
    pmMem ((((Manifest.update kcStore
        [Obs.new ⟨"p", "h1", (.reftest,
          [⟨"p", "/r1", .reftest, []⟩,
           ⟨"p", "/r2", .reftest, [("/r1", "==")]⟩])⟩]).getD
        (kcStore, false))).1.data .reftest_node) "p" = true := by
  decide

theorem kcStore_items_at : ItemsAt kcStore.data := by
  intro t q l hfl j hj
  by_cases ht : t = ItemType.testharness
  · subst ht
    by_cases hq : "p" = q
    · subst hq
      rw [show pmFind? (kcStore.data ItemType.testharness) "p"
            = some [⟨"p", "/p", ItemType.testharness, []⟩] from rfl] at hfl
      obtain rfl := Option.some.inj hfl
      obtain rfl := List.mem_singleton.mp hj
      rfl
    · have h0 : pmFind? (kcStore.data ItemType.testharness) q = none := by
        simp [kcStore, mdSet, pmFind?, hq]
      rw [h0] at hfl
      cases hfl
  · have h0 : pmFind? (kcStore.data t) q = none := by
      simp [kcStore, mdSet, ht]
    rw [h0] at hfl
    cases hfl

/-- Witness for `update_kind_change`: the concrete one-file store whose file
changes kind from testharness to reftest with one uncited extracted item. -/
theorem update_kind_change_witness :
    pmMem ((((Manifest.update kcStore
        [Obs.new ⟨"p", "h1", (.reftest, [⟨"p", "/p", .reftest, []⟩])⟩]).getD
        (kcStore, false))).1.data .testharness) "p" = false ∧
    ((pmMem ((((Manifest.update kcStore
        [Obs.new ⟨"p", "h1", (.reftest, [⟨"p", "/p", .reftest, []⟩])⟩]).getD
        (kcStore, false))).1.data .reftest) "p" = true ∧
      pmMem ((((Manifest.update kcStore
        [Obs.new ⟨"p", "h1", (.reftest, [⟨"p", "/p", .reftest, []⟩])⟩]).getD
        (kcStore, false))).1.data .reftest_node) "p" = false) ∨
     (pmMem ((((Manifest.update kcStore
        [Obs.new ⟨"p", "h1", (.reftest, [⟨"p", "/p", .reftest, []⟩])⟩]).getD
        (kcStore, false))).1.data .reftest) "p" = false ∧
      pmMem ((((Manifest.update kcStore
        [Obs.new ⟨"p", "h1", (.reftest, [⟨"p", "/p", .reftest, []⟩])⟩]).getD
        (kcStore, false))).1.data .reftest_node) "p" = true)) :=
  update_kind_change kcStore [] [] "p" "h0" "h1" ⟨"p", "/p", .reftest, []⟩
    ((Manifest.update kcStore
        [Obs.new ⟨"p", "h1", (.reftest, [⟨"p", "/p", .reftest, []⟩])⟩]).getD
        (kcStore, false)).1
    ((Manifest.update kcStore
        [Obs.new ⟨"p", "h1", (.reftest, [⟨"p", "/p", .reftest, []⟩])⟩]).getD
        (kcStore, false)).2
    rfl rfl (by decide) rfl kcStore_items_at (by simp) rfl

/-! ## Serialization and loading (`Manifest.from_json`, `_load`;
manifest.py lines 478-541) -/

/-- The persisted document as seen by `from_json`: a JSON object whose keys
may be absent (`none`).  The per-kind serialized index is modelled from the
spec as the index itself (see `Manifest.to_json`). -/
structure JDoc where
  version : Option Int
  url_base : Option String
  paths : Option (List (String × (String × String)))
  items : Option (List (String × PathMap (List ManifestItem)))

/-- The exceptions `from_json` and `_load` traffic in:
`ManifestVersionMismatch` (line 482), the generic `ManifestError` (lines 486
and 492) and Python's `KeyError` from the subscripts `obj["paths"]` /
`obj["items"]` (lines 488, 490). -/
inductive JErr where
  | versionMismatch
  | manifestError
  | keyError
deriving DecidableEq

/-- `hasattr(obj, "items")` for a dict object: always true — every dict has
the bound method `items`. -/
def hasattr_items (_ : JDoc) : Bool := true

/-- `hasattr(obj, "paths")` for a dict object: always false — `paths` is a
key of the dict, never an attribute. -/
def hasattr_paths (_ : JDoc) : Bool := false

/-- `Manifest.from_json` (manifest.py lines 478-499).  The dead guard on line
485 is kept verbatim: `not hasattr(obj, "items") and hasattr(obj, "paths")`
can never be true for a dict.  The kind names stored inside `paths` values
are not validated by the source; the typed embedding defaults unknown ones
(unreachable in any claim). The `types` filter argument is `None` here. -/
def Manifest.from_json (obj : JDoc) : Except JErr Manifest :=
  if obj.version ≠ some CURRENT_VERSION then .error .versionMismatch
  else if (!hasattr_items obj) && hasattr_paths obj then .error .manifestError
  else
    match obj.paths with
    | none => .error .keyError
    | some pathsJ =>
      match obj.items with
      | none => .error .keyError
      | some itemsJ =>
        match itemsJ.foldlM (fun (d : MData) kv =>
            match kindOfString kv.1 with
            | none => Except.error JErr.manifestError
            | some t => Except.ok (mdSet d t kv.2)) (fun _ => []) with
        | .error e => .error e
        | .ok d =>
          .ok ⟨obj.url_base.getD "/",
               pathsJ.map (fun kv => (kv.1, (kv.2.1, (kindOfString kv.2.2).getD .support))),
               d⟩

/-- What opening and JSON-parsing the persisted file yields inside `_load`'s
`try` block (lines 524-533): an `IOError`, a `ValueError` from the JSON
parser, or a parsed document handed to `from_json`. -/
inductive ReadOutcome where
  | ioError
  | valueError
  | parsed (doc : JDoc)

/-- `_load` for a string manifest path (manifest.py lines 519-533), without
the process-wide cache: `IOError` and `ValueError` are both converted to the
`None` ("no prior manifest") result, while exceptions raised by `from_json`
(`ManifestError`, `ManifestVersionMismatch`, `KeyError`) propagate. -/
def loadManifestFile (r : ReadOutcome) : Except JErr (Option Manifest) :=
  match r with
  | .ioError => .ok none
  | .valueError => .ok none
  | .parsed doc =>
    match Manifest.from_json doc with
    | .error e => .error e
    | .ok m => .ok (some m)

/-! ## Claim C9: from_json error behaviour -/

/-- **C9** (at the failing input): a document with `version` 7 and `paths`
present but `items` absent makes `from_json` raise the `KeyError` of the
`obj["items"]` subscript, not the generic `ManifestError` the claim states:
the guard of line 485 is dead because `hasattr(dict, "items")` is always true
(the dict method) and `hasattr(dict, "paths")` always false.  The other two
conjuncts of the claim hold: a version mismatch raises
`ManifestVersionMismatch`, and an unknown kind name under `items` raises
`ManifestError`. -/
theorem from_json_missing_items_keyerror :
    Manifest.from_json ⟨some 7, none, some [], none⟩ = Except.error JErr.keyError ∧
    Manifest.from_json ⟨some 7, none, some [], none⟩ ≠ Except.error JErr.manifestError ∧
    Manifest.from_json ⟨some 6, none, some [], some []⟩
      = Except.error JErr.versionMismatch ∧
    Manifest.from_json ⟨some 7, none, some [], some [("bogus", [])]⟩
      = Except.error JErr.manifestError := by
  refine ⟨rfl, ?_, rfl, rfl⟩
  intro hcon
  rw [show Manifest.from_json ⟨some 7, none, some [], none⟩
      = Except.error JErr.keyError from rfl] at hcon
  injection hcon with h2
  cases h2

/-! ## Claim C8: the load path's error policy -/

/-- **C8** (counterexample): a persisted document whose bytes are not valid
JSON (`ValueError` from the parser) is converted by `_load` into the same
`None` result that a missing file (`IOError`) produces — it does not abort
with an error reaching the caller, contrary to the claim.  (The source even
logs "may be corrupted" and returns `None`, lines 531-533.) -/
theorem load_parse_error_cex :
    loadManifestFile .valueError = Except.ok none ∧
    loadManifestFile .valueError = loadManifestFile .ioError ∧
    ∀ e : JErr, loadManifestFile .valueError ≠ Except.error e := by
  refine ⟨rfl, rfl, ?_⟩
  intro e h
  rw [show loadManifestFile ReadOutcome.valueError = Except.ok none from rfl] at h
  cases h

/-- **C8** (amended): structural errors detected by `from_json` — version
mismatch, format errors, missing keys — propagate to the caller, but a
document whose bytes fail to parse as JSON is treated like a missing file:
the load returns the no-prior-manifest result `None`. -/
theorem load_error_policy (doc : JDoc) (e : JErr)
    (h : Manifest.from_json doc = Except.error e) :
    loadManifestFile (.parsed doc) = Except.error e ∧
    loadManifestFile .valueError = Except.ok none := by
  constructor
  · simp only [loadManifestFile, h]
  · rfl

/-- Witness for `load_error_policy` at a version-6 document. -/
theorem load_error_policy_witness :
    loadManifestFile (.parsed ⟨some 6, none, some [], some []⟩)
      = Except.error JErr.versionMismatch ∧
    loadManifestFile .valueError = Except.ok none :=
  load_error_policy ⟨some 6, none, some [], some []⟩ JErr.versionMismatch rfl

/-! ## Claim C10: the fixed kind dictionary (`ManifestData`, lines 264-277) -/

inductive AttrErr where
  | attributeError
deriving DecidableEq

/-- `ManifestData` as the dict subclass it is in the source: an association
list of per-kind indices plus the `initialized` flag. -/
structure ManifestDataDict where
  entries : List (String × PathMap (List ManifestItem))
  initialized : Bool

/-- `ManifestData.__setitem__` (lines 274-277): binding a key raises
`AttributeError` once construction has finished. -/
def ManifestDataDict.setitem (d : ManifestDataDict) (k : String)
    (v : PathMap (List ManifestItem)) : Except AttrErr ManifestDataDict :=
  if d.initialized then .error .attributeError
  else .ok { d with entries := pmSet d.entries k v }

/-- The keys of `item_classes` in insertion order (lines 41-49). -/
def item_class_keys : List String :=
  ["testharness", "reftest", "reftest_node", "manual", "stub", "wdspec",
   "conformancechecker", "visual", "support"]

/-- `ManifestData.__init__` (lines 265-272): with `initialized` still false,
bind one (empty) per-kind index for every key of `item_classes` through
`__setitem__`, then set `initialized`. -/
def ManifestDataDict.new : ManifestDataDict :=
  let d1 := item_class_keys.foldl
    (fun (d : ManifestDataDict) (k : String) =>
      match d.setitem k [] with
      | .ok d' => d'
      | .error _ => d)
    (⟨[], false⟩ : ManifestDataDict)
  { d1 with initialized := true }

/-- **C10**: after construction the kind dictionary holds exactly the nine
known kinds (in `item_classes` order, the same names `kindName` gives the
engine's kind tags), and every attempt to bind a key afterwards fails with
`AttributeError`, so the key set can never change: the engine's per-kind
indices are fixed for the store's lifetime. -/
theorem manifest_data_fixed_kinds :
    ManifestDataDict.new.entries.map Prod.fst = item_class_keys ∧
    ManifestDataDict.new.entries.map Prod.fst = kindList.map kindName ∧
    ∀ (k : String) (v : PathMap (List ManifestItem)),
      ManifestDataDict.new.setitem k v = Except.error AttrErr.attributeError := by
  refine ⟨by decide, by decide, ?_⟩
  intro k v
  rfl

/-- Witness for `manifest_data_fixed_kinds` at a concrete key. -/
theorem manifest_data_fixed_kinds_witness :
    ManifestDataDict.new.setitem "testharness" []
      = Except.error AttrErr.attributeError :=
  manifest_data_fixed_kinds.2.2 "testharness" []
